import Mathlib

/-!
Verification of the cancelable asynchronous primitive layer of the
`panth977-packages/tools` repository: the single-value future `PPromise`
(src/ppromise.ts), the multi-value stream `PStream` (src/pstream.ts) and the
aggregation combinators `PPromise.all` / `PPromise.allCompleted`.

The development contains three shallow embeddings, each translated directly
from the TypeScript source:

* `PP` — a single `PPromise` cell observed through externally registered
  callbacks, identified by numeric labels; every callback invocation is
  recorded in a trace.  This models the methods `resolve`, `reject`,
  `cancel`, `ondata`, `onerror`, `oncancel`, `onend`, `shrinkMemory` and
  `promisified` of the class `PPromise` for plain (non-thenable) values.
* `PS` — a single `PStream` cell with its pre-consumption buffer
  (`unflusedData`), modelling `emit`, `resolve`, `reject`, `cancel`, the
  observer registrations, `flushData`, `listen` and `_listen`.
* `W` — a world of several `PPromise` cells wired together by the internal
  callbacks the combinators install (`map` / `then` / `catchCancel` /
  `PPromise._pipe` / `PPromise.all` / `PPromise.allCompleted` and the
  aggregation state of `PPromise._allState`, `_allResolveCb`,
  `_allRejectCb`).  Execution of a settlement cascade is a fuel-indexed
  interpreter.

The embedded value domain `Val` contains no thenables, so the
`isPromiseLike(data)` test performed by `PPromise.resolve` and
`PPromise._pipe` is `false` on every embedded value; the thenable-chaining
branches guarded by that test are therefore unreachable in the model and are
noted by comments at the corresponding places.
-/

/-- The universe of plain JavaScript values flowing through the primitives:
`undefined`, numbers, strings, arrays, and the dedicated cancellation
sentinel `CancelError` thrown by `PPromise.ThrowCancel`
(src/ppromise.ts lines 467-477).  None of these is promise-like. -/
inductive Val where
  | undef : Val
  | num : Nat → Val
  | str : String → Val
  | cancelError : Val
  | arr : List Val → Val


/-- `isPromiseLike` from src/utils.ts: tests whether a value carries a
callable `then`.  No constructor of `Val` is promise-like. -/
def isPromiseLike (_ : Val) : Bool := false

namespace PP

/-- The `result` field of `PPromise`:
`[0]` pending, `[1, T]` done, `[2, unknown]` error, `[3]` canceled
(src/ppromise.ts line 52). -/
inductive R where
  | pending : R
  | resolved : Val → R
  | rejected : Val → R
  | canceled : R


/-- An observable callback invocation.  External observers are identified by
a numeric label `k`; the event records on which channel the observer was
invoked and with which argument. -/
inductive Ev where
  | data : Nat → Val → Ev
  | error : Nat → Val → Ev
  | cancelE : Nat → Ev
  | endE : Nat → Ev


/-- A `PPromise` cell: the fixed `cancelable` flag, the `result` variant and
the four lazily-deleted observer arrays (`dataCb`, `errorCb`, `cancelCb`,
`endCb`), each an optional list of external observer labels.  `none` models
a field removed by `delete` in `shrinkMemory`. -/
structure State where
  cancelable : Bool
  result : R
  dataCb : Option (List Nat)
  errorCb : Option (List Nat)
  cancelCb : Option (List Nat)
  endCb : Option (List Nat)


/-- `new PPromise(cancelable)`: pending, with four empty observer arrays. -/
def init (c : Bool) : State :=
  ⟨c, R.pending, some [], some [], some [], some []⟩

/-- `shrinkMemory` (src/ppromise.ts lines 64-71): deletes all four observer
arrays.  (`Object.freeze` is not modelled: after the deletions no code path
of the embedded methods assigns to a field of a settled promise.) -/
def State.shrinkMemory (s : State) : State :=
  { s with dataCb := none, errorCb := none, cancelCb := none, endCb := none }

/-- Fire every callback of an optional observer list, producing one event per
callback via `mk`.  Exceptions thrown by observers are caught by the source
(`try { cb(..) } catch { PPromise.onError(..) }`); external observers in the
model do not throw. -/
def fireOpt (l : Option (List Nat)) (mk : Nat → Ev) : List Ev :=
  match l with
  | none => []
  | some ks => ks.map mk

/-- `resolve(data)` for a plain value (src/ppromise.ts lines 80-104).
The source first checks `isPromiseLike(data)` and chains through thenables;
`Val` contains no thenables so that branch is unreachable.  Otherwise: if
`dataCb` was deleted the call is a no-op; else the result becomes
`[1, data]`, every `dataCb` observer fires with the value, then every
`endCb` observer fires, then `shrinkMemory`. -/
def State.resolve (s : State) (v : Val) : State × List Ev :=
  match s.dataCb with
  | none => (s, [])
  | some ks =>
    let s1 : State := { s with result := R.resolved v }
    let evs := ks.map (fun k => Ev.data k v) ++ fireOpt s1.endCb Ev.endE
    (s1.shrinkMemory, evs)

/-- `reject(error)` (src/ppromise.ts lines 105-125): no-op once `errorCb`
was deleted; else result `[2, error]`, fire `errorCb` then `endCb`, then
`shrinkMemory`. -/
def State.reject (s : State) (e : Val) : State × List Ev :=
  match s.errorCb with
  | none => (s, [])
  | some ks =>
    let s1 : State := { s with result := R.rejected e }
    let evs := ks.map (fun k => Ev.error k e) ++ fireOpt s1.endCb Ev.endE
    (s1.shrinkMemory, evs)

/-- `cancel()` (src/ppromise.ts lines 126-147): no-op unless `cancelable`;
no-op once `cancelCb` was deleted; else result `[3]`, fire `cancelCb` then
`endCb`, then `shrinkMemory`. -/
def State.cancel (s : State) : State × List Ev :=
  if s.cancelable = false then (s, [])
  else
    match s.cancelCb with
    | none => (s, [])
    | some ks =>
      let s1 : State := { s with result := R.canceled }
      let evs := ks.map Ev.cancelE ++ fireOpt s1.endCb Ev.endE
      (s1.shrinkMemory, evs)

/-- `ondata(cb)` (src/ppromise.ts lines 149-162): if `dataCb` was deleted,
replay the callback immediately when the stored result is `[1, v]` and drop
it otherwise; if still present, append the callback. -/
def State.ondata (s : State) (k : Nat) : State × List Ev :=
  match s.dataCb with
  | none =>
    match s.result with
    | R.resolved v => (s, [Ev.data k v])
    | _ => (s, [])
  | some ks => ({ s with dataCb := some (ks ++ [k]) }, [])

/-- `onerror(cb)` (src/ppromise.ts lines 163-176): replay when the stored
result is `[2, e]`, drop on any other terminal outcome, append if pending. -/
def State.onerror (s : State) (k : Nat) : State × List Ev :=
  match s.errorCb with
  | none =>
    match s.result with
    | R.rejected e => (s, [Ev.error k e])
    | _ => (s, [])
  | some ks => ({ s with errorCb := some (ks ++ [k]) }, [])

/-- `oncancel(cb)` (src/ppromise.ts lines 177-191): no-op on a
non-cancelable promise; replay when the stored result is `[3]`; else append
if the array is still present. -/
def State.oncancel (s : State) (k : Nat) : State × List Ev :=
  if s.cancelable = false then (s, [])
  else
    match s.cancelCb with
    | none =>
      match s.result with
      | R.canceled => (s, [Ev.cancelE k])
      | _ => (s, [])
    | some ks => ({ s with cancelCb := some (ks ++ [k]) }, [])

/-- `onend(cb)` (src/ppromise.ts lines 192-205): once `endCb` was deleted,
replay for any non-pending result; else append. -/
def State.onend (s : State) (k : Nat) : State × List Ev :=
  match s.endCb with
  | none =>
    match s.result with
    | R.pending => (s, [])
    | _ => (s, [Ev.endE k])
  | some ks => ({ s with endCb := some (ks ++ [k]) }, [])

/-- The externally invokable operations on one `PPromise` cell: the
settlement methods driven through the port (`resolve` / `reject` /
`cancel`) and the four observer registrations. -/
inductive Op where
  | resolve : Val → Op
  | reject : Val → Op
  | cancel : Op
  | ondata : Nat → Op
  | onerror : Nat → Op
  | oncancel : Nat → Op
  | onend : Nat → Op


/-- Apply one operation to the cell. -/
def step (s : State) (op : Op) : State × List Ev :=
  match op with
  | Op.resolve v => s.resolve v
  | Op.reject e => s.reject e
  | Op.cancel => s.cancel
  | Op.ondata k => s.ondata k
  | Op.onerror k => s.onerror k
  | Op.oncancel k => s.oncancel k
  | Op.onend k => s.onend k

/-- Run a sequence of operations, concatenating the emitted events. -/
def run (s : State) (ops : List Op) : State × List Ev :=
  match ops with
  | [] => (s, [])
  | op :: rest =>
    ((run (step s op).1 rest).1, (step s op).2 ++ (run (step s op).1 rest).2)

/-- A cell state reachable by running some operation sequence from a fresh
`PPromise`. -/
def Reach (s : State) : Prop :=
  ∃ c ops, s = (run (init c) ops).1

/-- `promisified()` (src/ppromise.ts lines 461-465): wires the `resolve` and
`reject` of a fresh native promise through `this.ondata(resolve).onerror(reject)`.
The two native callbacks are modelled by the external labels `kRes` and
`kRej`. -/
def promisified (s : State) (kRes kRej : Nat) : State × List Ev :=
  (((s.ondata kRes).1.onerror kRej).1,
    (s.ondata kRes).2 ++ ((s.ondata kRes).1.onerror kRej).2)

/-- Outcome of the native promise built by `promisified`: it fulfills at the
first invocation of its `resolve` callback (`Ev.data kRes v`) and rejects at
the first invocation of its `reject` callback (`Ev.error kRej e`); it never
settles if its trace contains neither. -/
def nativeResult (tr : List Ev) (kRes kRej : Nat) : Option (Sum Val Val) :=
  match tr with
  | [] => none
  | Ev.data k v :: rest =>
    if k = kRes then some (Sum.inl v) else nativeResult rest kRes kRej
  | Ev.error k e :: rest =>
    if k = kRej then some (Sum.inr e) else nativeResult rest kRes kRej
  | _ :: rest => nativeResult rest kRes kRej

end PP

namespace PS

/-- The `result` field of `PStream`: `[0]` pending, `[1]` yielded,
`[2, unknown]` error, `[3]` canceled, `[4]` completed
(src/pstream.ts lines 46-52). -/
inductive SR where
  | pending : SR
  | yielded : SR
  | rejected : Val → SR
  | canceled : SR
  | completed : SR

/-- An `onnext` entry of a `PStream`: either an external observer registered
through `onnext(cb)` (label `k`), or the self-re-registering wrapper
`this._listen.bind(this, cb, i)` installed by `listen`/`_listen`
(src/pstream.ts lines 275-286), carrying the consumer label `k` and the next
index `i`. -/
inductive SCB where
  | ext : Nat → SCB
  | listenCb : Nat → Nat → SCB

/-- Observable stream events: `next k v` is a plain `onnext` observer `k`
invoked with `v`; `listenEv k v i` is a `listen` consumer `k` invoked as
`cb(v, i)`; the remaining events are the error / cancel / completed / end
observer invocations. -/
inductive SEv where
  | next : Nat → Val → SEv
  | listenEv : Nat → Val → Nat → SEv
  | errEv : Nat → Val → SEv
  | cancelEv : Nat → SEv
  | finishEv : Nat → SEv
  | endEv : Nat → SEv

/-- A `PStream` cell (src/pstream.ts lines 45-57): the pre-consumption
buffer `unflusedData` (spelled as in the source; `none` models the deleted
field), the `result` variant, and the five observer arrays. -/
structure SState where
  unflusedData : Option (List Val)
  result : SR
  nextCb : Option (List SCB)
  errorCb : Option (List Nat)
  completedCb : Option (List Nat)
  cancelCb : Option (List Nat)
  endCb : Option (List Nat)

/-- `new PStream()`: pending, empty buffer, five empty observer arrays. -/
def initS : SState :=
  ⟨some [], SR.pending, some [], some [], some [], some [], some []⟩

/-- `PStream.shrinkMemory` (src/pstream.ts lines 64-73): deletes `nextCb`
only when the buffer has already been flushed, then deletes `errorCb`,
`endCb` and `cancelCb`.  Note that `completedCb` is not deleted.
(`Object.freeze` is not modelled; see the design comment on `PP`.) -/
def SState.shrinkMemory (s : SState) : SState :=
  let s1 :=
    match s.unflusedData with
    | none => { s with nextCb := none }
    | some _ => s
  { s1 with errorCb := none, endCb := none, cancelCb := none }

/-- Fire one `nextCb` entry with a value.  A plain observer produces its
event; the `_listen` wrapper first re-registers itself with index `i + 1`
via `onnext` and then invokes the consumer callback as `cb(data, i)`
(src/pstream.ts lines 275-278). -/
def fireNextCb (s : SState) (cb : SCB) (v : Val) : SState × List SEv :=
  match cb with
  | SCB.ext k => (s, [SEv.next k v])
  | SCB.listenCb k i =>
    let s1 :=
      match s.nextCb with
      | none => s
      | some cbs => { s with nextCb := some (cbs ++ [SCB.listenCb k (i + 1)]) }
    (s1, [SEv.listenEv k v i])

/-- Fire a snapshot list of `nextCb` entries in order, threading the state
(for-of over the array captured at loop start; observer exceptions are
caught by the source and the modelled callbacks do not throw). -/
def fireNextList (s : SState) (cbs : List SCB) (v : Val) : SState × List SEv :=
  match cbs with
  | [] => (s, [])
  | cb :: rest =>
    ((fireNextList (fireNextCb s cb v).1 rest v).1,
      (fireNextCb s cb v).2 ++ (fireNextList (fireNextCb s cb v).1 rest v).2)

/-- `emit(data)` (src/pstream.ts lines 83-101): no-op once `nextCb` was
deleted; otherwise a pending stream becomes yielded; if the buffer is still
present the value is appended to it; otherwise the current `nextCb` array is
snapshotted, replaced by a fresh empty array, and every snapshotted entry is
invoked with the value. -/
def SState.emit (s : SState) (v : Val) : SState × List SEv :=
  match s.nextCb with
  | none => (s, [])
  | some _ =>
    let s1 :=
      match s.result with
      | SR.pending => { s with result := SR.yielded }
      | _ => s
    match s1.unflusedData with
    | some buf => ({ s1 with unflusedData := some (buf ++ [v]) }, [])
    | none =>
      match s1.nextCb with
      | none => (s1, [])
      | some cbs => fireNextList { s1 with nextCb := some [] } cbs v

/-- `PStream.resolve()` (src/pstream.ts lines 102-122): no-op once
`completedCb` was deleted; else result `[4]`, fire `completedCb` then
`endCb`, then `shrinkMemory`. -/
def SState.resolveS (s : SState) : SState × List SEv :=
  match s.completedCb with
  | none => (s, [])
  | some ks =>
    let s1 : SState := { s with result := SR.completed }
    let evE :=
      match s1.endCb with
      | none => []
      | some ke => ke.map SEv.endEv
    (s1.shrinkMemory, ks.map SEv.finishEv ++ evE)

/-- `PStream.reject(error)` (src/pstream.ts lines 123-143). -/
def SState.rejectS (s : SState) (e : Val) : SState × List SEv :=
  match s.errorCb with
  | none => (s, [])
  | some ks =>
    let s1 : SState := { s with result := SR.rejected e }
    let evE :=
      match s1.endCb with
      | none => []
      | some ke => ke.map SEv.endEv
    (s1.shrinkMemory, ks.map (fun k => SEv.errEv k e) ++ evE)

/-- `PStream.cancel()` (src/pstream.ts lines 144-164): gated only on the
presence of `cancelCb`. -/
def SState.cancelS (s : SState) : SState × List SEv :=
  match s.cancelCb with
  | none => (s, [])
  | some ks =>
    let s1 : SState := { s with result := SR.canceled }
    let evE :=
      match s1.endCb with
      | none => []
      | some ke => ke.map SEv.endEv
    (s1.shrinkMemory, ks.map SEv.cancelEv ++ evE)

/-- `onnext(cb)` (src/pstream.ts lines 166-171): append if `nextCb` is still
present, silently ignore otherwise; never replays. -/
def SState.onnext (s : SState) (cb : SCB) : SState :=
  match s.nextCb with
  | none => s
  | some cbs => { s with nextCb := some (cbs ++ [cb]) }

/-- `PStream.onerror(cb)` (src/pstream.ts lines 172-185): replay when the
stored result is `[2, e]`, drop on any other outcome, append if present. -/
def SState.onerrorS (s : SState) (k : Nat) : SState × List SEv :=
  match s.errorCb with
  | none =>
    match s.result with
    | SR.rejected e => (s, [SEv.errEv k e])
    | _ => (s, [])
  | some ks => ({ s with errorCb := some (ks ++ [k]) }, [])

/-- `PStream.oncancel(cb)` (src/pstream.ts lines 186-199). -/
def SState.oncancelS (s : SState) (k : Nat) : SState × List SEv :=
  match s.cancelCb with
  | none =>
    match s.result with
    | SR.canceled => (s, [SEv.cancelEv k])
    | _ => (s, [])
  | some ks => ({ s with cancelCb := some (ks ++ [k]) }, [])

/-- `onfinish(cb)` (src/pstream.ts lines 200-213): replay when the stored
result is `[4]`. -/
def SState.onfinish (s : SState) (k : Nat) : SState × List SEv :=
  match s.completedCb with
  | none =>
    match s.result with
    | SR.completed => (s, [SEv.finishEv k])
    | _ => (s, [])
  | some ks => ({ s with completedCb := some (ks ++ [k]) }, [])

/-- `PStream.onend(cb)` (src/pstream.ts lines 214-227): once `endCb` was
deleted, replay for any result other than pending `[0]` and yielded `[1]`. -/
def SState.onendS (s : SState) (k : Nat) : SState × List SEv :=
  match s.endCb with
  | none =>
    match s.result with
    | SR.pending => (s, [])
    | SR.yielded => (s, [])
    | _ => (s, [SEv.endEv k])
  | some ks => ({ s with endCb := some (ks ++ [k]) }, [])

/-- The body of `flushData`'s loop (src/pstream.ts lines 231-241): for each
buffered value, snapshot `this.nextCb`, replace it with a fresh empty array
and fire the snapshot.  `nextCb` remains an array throughout the loop, so
the `none` branch is unreachable for states produced by the source. -/
def flushLoop (s : SState) (buf : List Val) : SState × List SEv :=
  match buf with
  | [] => (s, [])
  | v :: rest =>
    match s.nextCb with
    | none => flushLoop s rest
    | some cbs =>
      ((flushLoop (fireNextList { s with nextCb := some [] } cbs v).1 rest).1,
        (fireNextList { s with nextCb := some [] } cbs v).2 ++
          (flushLoop (fireNextList { s with nextCb := some [] } cbs v).1 rest).2)

/-- `flushData()` (src/pstream.ts lines 228-247): no-op if the buffer was
already flushed or `nextCb` was deleted; otherwise deliver every buffered
value through the loop, delete the buffer, and `shrinkMemory` when the
result is neither pending `[0]` nor yielded `[1]`. -/
def SState.flushData (s : SState) : SState × List SEv :=
  match s.unflusedData with
  | none => (s, [])
  | some buf =>
    match s.nextCb with
    | none => (s, [])
    | some _ =>
      let s1 := (flushLoop s buf).1
      let evs := (flushLoop s buf).2
      let s2 := { s1 with unflusedData := none }
      match s2.result with
      | SR.pending => (s2, evs)
      | SR.yielded => (s2, evs)
      | _ => (s2.shrinkMemory, evs)

/-- `listen(cb)` (src/pstream.ts lines 279-286): throws (`none`) when the
buffer was already flushed; otherwise registers the `_listen` wrapper with
index 0 and flushes. -/
def SState.listen (s : SState) (k : Nat) : Option (SState × List SEv) :=
  match s.unflusedData with
  | none => none
  | some _ => some ((s.onnext (SCB.listenCb k 0)).flushData)

/-- Externally invokable operations on one `PStream` cell. -/
inductive SOp where
  | emit : Val → SOp
  | resolveS : SOp
  | rejectS : Val → SOp
  | cancelS : SOp
  | onnext : Nat → SOp
  | onerrorS : Nat → SOp
  | oncancelS : Nat → SOp
  | onfinish : Nat → SOp
  | onendS : Nat → SOp
  | flushData : SOp
  | listen : Nat → SOp

/-- Apply one operation.  A `listen` call that throws leaves the stream
unchanged (the guard fires before any mutation). -/
def stepS (s : SState) (op : SOp) : SState × List SEv :=
  match op with
  | SOp.emit v => s.emit v
  | SOp.resolveS => s.resolveS
  | SOp.rejectS e => s.rejectS e
  | SOp.cancelS => s.cancelS
  | SOp.onnext k => (s.onnext (SCB.ext k), [])
  | SOp.onerrorS k => s.onerrorS k
  | SOp.oncancelS k => s.oncancelS k
  | SOp.onfinish k => s.onfinish k
  | SOp.onendS k => s.onendS k
  | SOp.flushData => s.flushData
  | SOp.listen k =>
    match s.listen k with
    | none => (s, [])
    | some r => r

/-- Run a sequence of stream operations. -/
def runS (s : SState) (ops : List SOp) : SState × List SEv :=
  match ops with
  | [] => (s, [])
  | op :: rest =>
    ((runS (stepS s op).1 rest).1, (stepS s op).2 ++ (runS (stepS s op).1 rest).2)

/-- A stream state reachable from a fresh `PStream`. -/
def ReachS (s : SState) : Prop :=
  ∃ ops, s = (runS initS ops).1

/-- The stream's terminal states: error `[2]`, canceled `[3]`,
completed `[4]`. -/
def SR.terminal : SR → Bool
  | SR.pending => false
  | SR.yielded => false
  | _ => true

end PS

namespace W

/-- Outcome of invoking a JavaScript function: a returned value or a thrown
exception. -/
inductive HRes where
  | ret : Val → HRes
  | thr : Val → HRes

/-- The functions that appear as `ondata` / `onerror` arguments of
`PPromise._pipe` in the embedded combinators: an arbitrary user transform, the
sentinel thrower `PPromise.ThrowCancel`, `VoidFn` (returns `undefined`), and
the two aggregation callbacks `PPromise._allResolveCb` / `_allRejectCb`
bound to the shared aggregation state and an element index. -/
inductive Handler where
  | fn : (Val → HRes) → Handler
  | throwCancel : Handler
  | voidFn : Handler
  | allResolve : Nat → Handler
  | allReject : Nat → Handler

/-- The internal callback shapes the combinators register on a cell's
observer arrays (src/ppromise.ts `map`, lines 256-300, and `all` /
`allCompleted`): the bound settlement methods of another cell, and
`PPromise._pipe` bound to an `ondata` handler, an optional `onerror` handler
and a target cell. -/
inductive CB where
  | resolveCell : Nat → CB
  | rejectCell : Nat → CB
  | cancelCell : Nat → CB
  | pipe : Handler → Option Handler → Nat → CB

/-- A `PPromise` cell as in `PP.State`, with internal callbacks in the
observer arrays instead of external labels. -/
structure Cell where
  cancelable : Bool
  result : PP.R
  dataCb : Option (List CB)
  errorCb : Option (List CB)
  cancelCb : Option (List CB)
  endCb : Option (List CB)

/-- `new PPromise(cancelable)`. -/
def Cell.init (c : Bool) : Cell :=
  ⟨c, PP.R.pending, some [], some [], some [], some []⟩

/-- The object returned by `PPromise._allState(len)` (src/ppromise.ts lines
358-366): running weighted count `cnt`, target `finalCnt = len*(len+1)/2`,
first-rejection flag `err`, the result array, and the aggregate promise
(as a cell index). -/
structure AState where
  cnt : Nat
  finalCnt : Nat
  err : Bool
  result : List (Option Val)
  promise : Nat

/-- A world: the promise cells (addressed by position) and one aggregation
state (worlds that use no aggregation carry an inert dummy). -/
structure World where
  cells : List Cell
  astate : AState

/-- The cell stored at index `j`, if any. -/
def World.cell? (w : World) (j : Nat) : Option Cell :=
  w.cells.get? j

/-- Replace the cell at index `j`. -/
def World.setCell (w : World) (j : Nat) (c : Cell) : World :=
  { w with cells := w.cells.set j c }

/-- The `result` of the cell at index `j` (`none` when out of range). -/
def World.resultOf (w : World) (j : Nat) : Option PP.R :=
  (w.cell? j).map Cell.result

/-- `shrinkMemory` on the cell at `j`: delete all four observer arrays. -/
def World.shrinkCell (w : World) (j : Nat) : World :=
  match w.cell? j with
  | none => w
  | some c =>
    w.setCell j { c with dataCb := none, errorCb := none, cancelCb := none, endCb := none }

/-- One pending piece of work of a settlement cascade: a bound settlement
method of a cell, the invocation of a registered callback or of a list of
them, `PPromise._pipe` (`pipeA`, with `pipeCatch` its catch block), or one
of the two aggregation callbacks. -/
inductive Act where
  | resolveC : Nat → Val → Act
  | rejectC : Nat → Val → Act
  | cancelC : Nat → Act
  | fireCB : CB → Val → Act
  | fireList : List CB → Val → Act
  | pipeA : Handler → Option Handler → Nat → Val → Act
  | pipeCatch : Option Handler → Nat → Val → Act
  | allRes : Nat → Val → Act
  | allRej : Nat → Val → Act

/-- Fuel-indexed interpreter for settlement cascades.  Each clause is a
direct translation of the corresponding source method; the cascade depth of
every scenario in this file is far below the fuel it is run with.

* `resolveC j v` — `PPromise.resolve` (lines 80-104) on cell `j` for a plain
  value: no-op once `dataCb` was deleted (the `isPromiseLike(data)` chaining
  branch is unreachable for `Val`); else store `[1, v]`, fire the `dataCb`
  snapshot, re-read `endCb` (a reentrant settlement may have deleted it),
  fire it, then `shrinkMemory`.
* `rejectC` / `cancelC` — `reject` (105-125) and `cancel` (126-147),
  the latter gated on `cancelable`.
* `fireCB` / `fireList` — invoking registered callbacks in order (observer
  exceptions are caught by the source; the modelled callbacks hand
  exceptions to `_pipe`'s catch instead of throwing past it).
* `pipeA h he j v` — `PPromise._pipe(ondata, onerror, promise, data)`
  (lines 230-255): run `ondata`; a returned value resolves `j` (the
  `isPromiseLike(result)` branch is unreachable for `Val`); a thrown value
  goes to `pipeCatch`.
* `pipeCatch he j e` — the catch block: `_pipe(onerror, null, promise, e)`
  when an `onerror` is present, else `promise.reject(e)`.
* `allRes i v` — `PPromise._allResolveCb(state, i, value)` (lines 367-383):
  unless `err` is set, `cnt += i`, store the value at index `i`, and when
  `cnt >= finalCnt` resolve the aggregate promise with the result array
  (the subsequent deletions of `state.result` / `promise` / `cnt` /
  `finalCnt` happen only after the aggregate has settled and are not
  observable through any cell afterwards).
* `allRej i e` — `PPromise._allRejectCb(state, _i, error)` (lines 384-397):
  unless `err` is set, set it and reject the aggregate promise with the
  error (same remark about the deletions). -/
def exec : Nat → Act → World → World
  | 0, _, w => w
  | Nat.succ f, act, w =>
    match act with
    | Act.resolveC j v =>
      match w.cell? j with
      | none => w
      | some c =>
        match c.dataCb with
        | none => w
        | some cbs =>
          let w1 := w.setCell j { c with result := PP.R.resolved v }
          let w2 := exec f (Act.fireList cbs v) w1
          let w3 :=
            match w2.cell? j with
            | some c2 =>
              match c2.endCb with
              | some ecbs => exec f (Act.fireList ecbs Val.undef) w2
              | none => w2
            | none => w2
          w3.shrinkCell j
    | Act.rejectC j e =>
      match w.cell? j with
      | none => w
      | some c =>
        match c.errorCb with
        | none => w
        | some cbs =>
          let w1 := w.setCell j { c with result := PP.R.rejected e }
          let w2 := exec f (Act.fireList cbs e) w1
          let w3 :=
            match w2.cell? j with
            | some c2 =>
              match c2.endCb with
              | some ecbs => exec f (Act.fireList ecbs Val.undef) w2
              | none => w2
            | none => w2
          w3.shrinkCell j
    | Act.cancelC j =>
      match w.cell? j with
      | none => w
      | some c =>
        if c.cancelable = false then w
        else
          match c.cancelCb with
          | none => w
          | some cbs =>
            let w1 := w.setCell j { c with result := PP.R.canceled }
            let w2 := exec f (Act.fireList cbs Val.undef) w1
            let w3 :=
              match w2.cell? j with
              | some c2 =>
                match c2.endCb with
                | some ecbs => exec f (Act.fireList ecbs Val.undef) w2
                | none => w2
              | none => w2
            w3.shrinkCell j
    | Act.fireList [] _ => w
    | Act.fireList (cb :: rest) v =>
      exec f (Act.fireList rest v) (exec f (Act.fireCB cb v) w)
    | Act.fireCB cb v =>
      match cb with
      | CB.resolveCell j => exec f (Act.resolveC j v) w
      | CB.rejectCell j => exec f (Act.rejectC j v) w
      | CB.cancelCell j => exec f (Act.cancelC j) w
      | CB.pipe h he j => exec f (Act.pipeA h he j v) w
    | Act.pipeA h he j v =>
      match h with
      | Handler.fn g =>
        match g v with
        | HRes.ret r => exec f (Act.resolveC j r) w
        | HRes.thr e => exec f (Act.pipeCatch he j e) w
      | Handler.throwCancel => exec f (Act.pipeCatch he j Val.cancelError) w
      | Handler.voidFn => exec f (Act.resolveC j Val.undef) w
      | Handler.allResolve i =>
        exec f (Act.resolveC j Val.undef) (exec f (Act.allRes i v) w)
      | Handler.allReject i =>
        exec f (Act.resolveC j Val.undef) (exec f (Act.allRej i v) w)
    | Act.pipeCatch he j e =>
      match he with
      | some h2 => exec f (Act.pipeA h2 none j e) w
      | none => exec f (Act.rejectC j e) w
    | Act.allRes i v =>
      if w.astate.err then w
      else
        let a1 := { w.astate with
                    cnt := w.astate.cnt + i,
                    result := w.astate.result.set i (some v) }
        let w1 := { w with astate := a1 }
        if a1.finalCnt ≤ a1.cnt then
          exec f
            (Act.resolveC a1.promise (Val.arr (a1.result.map (fun o => o.getD Val.undef))))
            w1
        else w1
    | Act.allRej _i e =>
      if w.astate.err then w
      else
        let w1 := { w with astate := { w.astate with err := true } }
        exec f (Act.rejectC w1.astate.promise e) w1

/-- `ondata(cb)` on the cell at `j` with an internal callback: append while
the array is present; replay through the interpreter when the cell already
resolved; drop otherwise (src/ppromise.ts lines 149-162). -/
def World.ondataW (w : World) (j : Nat) (cb : CB) (fuel : Nat) : World :=
  match w.cell? j with
  | none => w
  | some c =>
    match c.dataCb with
    | none =>
      match c.result with
      | PP.R.resolved v => exec fuel (Act.fireCB cb v) w
      | _ => w
    | some cbs => w.setCell j { c with dataCb := some (cbs ++ [cb]) }

/-- `onerror(cb)` with an internal callback (lines 163-176). -/
def World.onerrorW (w : World) (j : Nat) (cb : CB) (fuel : Nat) : World :=
  match w.cell? j with
  | none => w
  | some c =>
    match c.errorCb with
    | none =>
      match c.result with
      | PP.R.rejected e => exec fuel (Act.fireCB cb e) w
      | _ => w
    | some cbs => w.setCell j { c with errorCb := some (cbs ++ [cb]) }

/-- `oncancel(cb)` with an internal callback (lines 177-191): no-op on a
non-cancelable cell; replay with no argument when already canceled. -/
def World.oncancelW (w : World) (j : Nat) (cb : CB) (fuel : Nat) : World :=
  match w.cell? j with
  | none => w
  | some c =>
    if c.cancelable = false then w
    else
      match c.cancelCb with
      | none =>
        match c.result with
        | PP.R.canceled => exec fuel (Act.fireCB cb Val.undef) w
        | _ => w
      | some cbs => w.setCell j { c with cancelCb := some (cbs ++ [cb]) }

/-- `map(onfulfilled?, onrejected?, oncanceled?, bindCancel)`
(src/ppromise.ts lines 256-300): create the derived cell with the source's
cancelability, then wire the source's three channels into it — a given
handler goes through `_pipe` (with `onrejected` as `_pipe`'s `onerror` on
the data and cancel channels), an absent one becomes the bound
`resolve` / `reject` / `cancel` of the derived cell — and, when
`bindCancel`, register the source's bound `cancel` on the derived cell.
Returns the world and the derived cell's index. -/
def World.mapW (w : World) (src : Nat) (onf onr onc : Option Handler)
    (bindCancel : Bool) (fuel : Nat) : World × Nat :=
  let srcCancelable :=
    match w.cell? src with
    | some c => c.cancelable
    | none => false
  let tgt := w.cells.length
  let w1 : World := { w with cells := w.cells ++ [Cell.init srcCancelable] }
  let w2 :=
    match onf with
    | some h => w1.ondataW src (CB.pipe h onr tgt) fuel
    | none => w1.ondataW src (CB.resolveCell tgt) fuel
  let w3 :=
    match onr with
    | some h => w2.onerrorW src (CB.pipe h none tgt) fuel
    | none => w2.onerrorW src (CB.rejectCell tgt) fuel
  let w4 :=
    match onc with
    | some h => w3.oncancelW src (CB.pipe h onr tgt) fuel
    | none => w3.oncancelW src (CB.cancelCell tgt) fuel
  let w5 := if bindCancel then w4.oncancelW tgt (CB.cancelCell src) fuel else w4
  (w5, tgt)

/-- `then(onfulfilled?, onrejected?)` (src/ppromise.ts lines 301-312):
`map(onfulfilled, onrejected, PPromise.ThrowCancel, true)`. -/
def World.thenW (w : World) (src : Nat) (onf onr : Option Handler)
    (fuel : Nat) : World × Nat :=
  w.mapW src onf onr (some Handler.throwCancel) true fuel

/-- `catchCancel(oncanceled?, bindCancel = true)` (src/ppromise.ts lines
321-326): `map(null, null, oncanceled, bindCancel)`. -/
def World.catchCancelW (w : World) (src : Nat) (onc : Option Handler)
    (bindCancel : Bool) (fuel : Nat) : World × Nat :=
  w.mapW src none none onc bindCancel fuel

end W

namespace W

/-- One iteration of the loop of `PPromise.all` (src/ppromise.ts lines
413-427) for an element that is a `PPromise` cell: with `bindCancel` the
aggregate registers the element's bound `cancel`; the element is wrapped by
`catchCancel(PPromise.ThrowCancel)`; the wrapper is promise-like, so its
`then` is called with `_allResolveCb` / `_allRejectCb` bound to the shared
state and the element index. -/
def allPPStep (w : World) (agg i elem fuel : Nat) : World :=
  let wA := w.oncancelW agg (CB.cancelCell elem) fuel
  let (wB, wi) := wA.catchCancelW elem (some Handler.throwCancel) true fuel
  let (wC, _di) :=
    wB.thenW wi (some (Handler.allResolve i)) (some (Handler.allReject i)) fuel
  wC

/-- `PPromise.all(data, bindCancel = true)` (src/ppromise.ts lines 407-429)
where every element of `data` is a `PPromise` cell: install
`PPromise._allState(data.length)` — the fresh cancelable aggregate promise
and the counting state with `finalCnt = (len * (len + 1)) / 2` — then run
the wiring loop.  Returns the world and the aggregate's index. -/
def World.allPP (w : World) (elems : List Nat) (fuel : Nat) : World × Nat :=
  let agg := w.cells.length
  let w1 : World :=
    { cells := w.cells ++ [Cell.init true],
      astate := { cnt := 0, finalCnt := elems.length * (elems.length + 1) / 2,
                  err := false, result := List.replicate elems.length none,
                  promise := agg } }
  let w2 := (elems.enum).foldl (fun wa p => allPPStep wa agg p.1 p.2 fuel) w1
  (w2, agg)

/-- `PPromise.all(data)` (src/ppromise.ts lines 407-429) where every element
is a plain value: each loop iteration is neither a `PPromise` nor
promise-like, so it calls `PPromise._allResolveCb(state, i, process)`
directly.  Returns the world and the aggregate's index. -/
def allPlain (data : List Val) (fuel : Nat) : World × Nat :=
  let w0 : World :=
    { cells := [Cell.init true],
      astate := { cnt := 0, finalCnt := data.length * (data.length + 1) / 2,
                  err := false, result := List.replicate data.length none,
                  promise := 0 } }
  let w1 := (data.enum).foldl (fun wa p => exec fuel (Act.allRes p.1 p.2) wa) w0
  (w1, 0)

/-- `PPromise.allCompleted(data)` (src/ppromise.ts lines 430-450) where
every element is a plain value: the loop calls `_allResolveCb` directly for
each element, then `const out = promise.then(VoidFn)` derives the returned
future from the aggregate.  Returns the world and `out`'s index. -/
def allCompletedPlain (data : List Val) (fuel : Nat) : World × Nat :=
  let w0 : World :=
    { cells := [Cell.init true],
      astate := { cnt := 0, finalCnt := data.length * (data.length + 1) / 2,
                  err := false, result := List.replicate data.length none,
                  promise := 0 } }
  let w1 := (data.enum).foldl (fun wa p => exec fuel (Act.allRes p.1 p.2) wa) w0
  ((w1.thenW 0 (some Handler.voidFn) none fuel).1,
    (w1.thenW 0 (some Handler.voidFn) none fuel).2)

/-- `PPromise.allCompleted(data)` where every element is a generic thenable
(promise-like but not a `PPromise`): the loop registers `_allResolveCb` on
BOTH settlement channels of each element
(`process.then(_allResolveCb.bind(state, i), _allResolveCb.bind(state, i))`,
src/ppromise.ts lines 439-443); the thenables are external objects, so the
loop itself leaves the world unchanged, `out = promise.then(VoidFn)` is
derived, and afterwards each element settles — `outcomes` lists, in index
order, the payload each element settles with (a fulfillment value or a
rejection error; both reach `_allResolveCb`). -/
def allCompletedThenables (outcomes : List Val) (fuel : Nat) : World × Nat :=
  let w0 : World :=
    { cells := [Cell.init true],
      astate := { cnt := 0, finalCnt := outcomes.length * (outcomes.length + 1) / 2,
                  err := false, result := List.replicate outcomes.length none,
                  promise := 0 } }
  let w1 := (w0.thenW 0 (some Handler.voidFn) none fuel).1
  let w2 := (outcomes.enum).foldl (fun wa p => exec fuel (Act.allRes p.1 p.2) wa) w1
  (w2, (w0.thenW 0 (some Handler.voidFn) none fuel).2)

/-- Fuel used to run the concrete scenarios; every cascade below is much
shallower than this. -/
def FUEL : Nat := 24

/-- Two pending cancelable element promises `p0` (cell 0) and `p1` (cell 1),
with an inert aggregation slot. -/
def c2Base : World :=
  { cells := [Cell.init true, Cell.init true],
    astate := { cnt := 0, finalCnt := 0, err := false, result := [], promise := 0 } }

/-- The world immediately after `PPromise.all([p0, p1])`. -/
def c2W : World := (c2Base.allPP [0, 1] FUEL).1

/-- The aggregate future returned by `PPromise.all([p0, p1])` (cell 2). -/
def c2Agg : Nat := (c2Base.allPP [0, 1] FUEL).2

/-- `PPromise.all([p0, p1])`, then `p1` rejects with `e` while `p0` is still
pending. -/
def c2Reject (e : Val) : World := exec FUEL (Act.rejectC 1 e) c2W

/-- `PPromise.all([p0, p1])`, then the caller cancels the aggregate. -/
def c2Cancel : World := exec FUEL (Act.cancelC c2Agg) c2W

/-- A pending cancelable source promise (cell 0) with an inert aggregation
slot. -/
def c7Base : World :=
  { cells := [Cell.init true],
    astate := { cnt := 0, finalCnt := 0, err := false, result := [], promise := 0 } }

/-- The world after `derived = source.then(g)` for a user transform `g`:
source is cell 0, derived is cell 1. -/
def c7W (g : Val → HRes) : World := (c7Base.thenW 0 (some (Handler.fn g)) none FUEL).1

/-- `source.then(g)`, then the source is cancelled before settling. -/
def c7CancelSource (g : Val → HRes) : World := exec FUEL (Act.cancelC 0) (c7W g)

/-- `source.then(g)`, then the derived future is cancelled. -/
def c7CancelDerived (g : Val → HRes) : World := exec FUEL (Act.cancelC 1) (c7W g)

end W

namespace W

/-- The world built by `PPromise.all([p0, p1])` on two pending cancelable
element cells, written out: cell 2 is the aggregate (with the two
`bindCancel` registrations), cells 3 and 5 are the `catchCancel` wrappers of
the elements, cells 4 and 6 the discarded futures created by the `then`
calls that bind `_allResolveCb` / `_allRejectCb`.  `c2W_eval` checks this
against the wiring builder. -/
def c2Wlit : World :=
  { cells := [
      ⟨true, PP.R.pending, some [CB.resolveCell 3], some [CB.rejectCell 3],
        some [CB.pipe Handler.throwCancel none 3], some []⟩,
      ⟨true, PP.R.pending, some [CB.resolveCell 5], some [CB.rejectCell 5],
        some [CB.pipe Handler.throwCancel none 5], some []⟩,
      ⟨true, PP.R.pending, some [], some [],
        some [CB.cancelCell 0, CB.cancelCell 1], some []⟩,
      ⟨true, PP.R.pending,
        some [CB.pipe (Handler.allResolve 0) (some (Handler.allReject 0)) 4],
        some [CB.pipe (Handler.allReject 0) none 4],
        some [CB.cancelCell 0, CB.pipe Handler.throwCancel (some (Handler.allReject 0)) 4],
        some []⟩,
      ⟨true, PP.R.pending, some [], some [], some [CB.cancelCell 3], some []⟩,
      ⟨true, PP.R.pending,
        some [CB.pipe (Handler.allResolve 1) (some (Handler.allReject 1)) 6],
        some [CB.pipe (Handler.allReject 1) none 6],
        some [CB.cancelCell 1, CB.pipe Handler.throwCancel (some (Handler.allReject 1)) 6],
        some []⟩,
      ⟨true, PP.R.pending, some [], some [], some [CB.cancelCell 5], some []⟩],
    astate := { cnt := 0, finalCnt := 3, err := false, result := [none, none], promise := 2 } }

/-- `c2Wlit` at the moment `p1.reject(e)` has stored `[2, e]` on cell 1 but
not yet fired cell 1's error observers. -/
def c2W1lit (e : Val) : World :=
  { cells := [
      ⟨true, PP.R.pending, some [CB.resolveCell 3], some [CB.rejectCell 3],
        some [CB.pipe Handler.throwCancel none 3], some []⟩,
      ⟨true, PP.R.rejected e, some [CB.resolveCell 5], some [CB.rejectCell 5],
        some [CB.pipe Handler.throwCancel none 5], some []⟩,
      ⟨true, PP.R.pending, some [], some [],
        some [CB.cancelCell 0, CB.cancelCell 1], some []⟩,
      ⟨true, PP.R.pending,
        some [CB.pipe (Handler.allResolve 0) (some (Handler.allReject 0)) 4],
        some [CB.pipe (Handler.allReject 0) none 4],
        some [CB.cancelCell 0, CB.pipe Handler.throwCancel (some (Handler.allReject 0)) 4],
        some []⟩,
      ⟨true, PP.R.pending, some [], some [], some [CB.cancelCell 3], some []⟩,
      ⟨true, PP.R.pending,
        some [CB.pipe (Handler.allResolve 1) (some (Handler.allReject 1)) 6],
        some [CB.pipe (Handler.allReject 1) none 6],
        some [CB.cancelCell 1, CB.pipe Handler.throwCancel (some (Handler.allReject 1)) 6],
        some []⟩,
      ⟨true, PP.R.pending, some [], some [], some [CB.cancelCell 5], some []⟩],
    astate := { cnt := 0, finalCnt := 3, err := false, result := [none, none], promise := 2 } }

/-- `c2W1lit e` after the wrapper of `p1` (cell 5) has finished rejecting:
`_allRejectCb` has set `err`, rejected and shrunk the aggregate (cell 2),
the discarded `then`-future of element 1 (cell 6) resolved with
`undefined`, and cell 5 was shrunk; `p1` (cell 1) has not run its end phase
yet.  Throughout, `p0` (cell 0) is untouched. -/
def c2WBlit (e : Val) : World :=
  { cells := [
      ⟨true, PP.R.pending, some [CB.resolveCell 3], some [CB.rejectCell 3],
        some [CB.pipe Handler.throwCancel none 3], some []⟩,
      ⟨true, PP.R.rejected e, some [CB.resolveCell 5], some [CB.rejectCell 5],
        some [CB.pipe Handler.throwCancel none 5], some []⟩,
      ⟨true, PP.R.rejected e, none, none, none, none⟩,
      ⟨true, PP.R.pending,
        some [CB.pipe (Handler.allResolve 0) (some (Handler.allReject 0)) 4],
        some [CB.pipe (Handler.allReject 0) none 4],
        some [CB.cancelCell 0, CB.pipe Handler.throwCancel (some (Handler.allReject 0)) 4],
        some []⟩,
      ⟨true, PP.R.pending, some [], some [], some [CB.cancelCell 3], some []⟩,
      ⟨true, PP.R.rejected e, none, none, none, none⟩,
      ⟨true, PP.R.resolved Val.undef, none, none, none, none⟩],
    astate := { cnt := 0, finalCnt := 3, err := true, result := [none, none], promise := 2 } }

/-- The final world of the rejection scenario: as `c2WBlit e` with `p1`
(cell 1) shrunk.  `p0` (cell 0) is still pending with its wiring intact. -/
def c2WFlit (e : Val) : World :=
  { cells := [
      ⟨true, PP.R.pending, some [CB.resolveCell 3], some [CB.rejectCell 3],
        some [CB.pipe Handler.throwCancel none 3], some []⟩,
      ⟨true, PP.R.rejected e, none, none, none, none⟩,
      ⟨true, PP.R.rejected e, none, none, none, none⟩,
      ⟨true, PP.R.pending,
        some [CB.pipe (Handler.allResolve 0) (some (Handler.allReject 0)) 4],
        some [CB.pipe (Handler.allReject 0) none 4],
        some [CB.cancelCell 0, CB.pipe Handler.throwCancel (some (Handler.allReject 0)) 4],
        some []⟩,
      ⟨true, PP.R.pending, some [], some [], some [CB.cancelCell 3], some []⟩,
      ⟨true, PP.R.rejected e, none, none, none, none⟩,
      ⟨true, PP.R.resolved Val.undef, none, none, none, none⟩],
    astate := { cnt := 0, finalCnt := 3, err := true, result := [none, none], promise := 2 } }

/-- The world built by `source.then(g)` on a pending cancelable source,
written out; `c7W_eval` checks it against the wiring builder. -/
def c7Wlit (g : Val → HRes) : World :=
  { cells := [
      ⟨true, PP.R.pending, some [CB.pipe (Handler.fn g) none 1], some [CB.rejectCell 1],
        some [CB.pipe Handler.throwCancel none 1], some []⟩,
      ⟨true, PP.R.pending, some [], some [], some [CB.cancelCell 0], some []⟩],
    astate := { cnt := 0, finalCnt := 0, err := false, result := [], promise := 0 } }

end W


namespace PP

/-- The observer label an event belongs to. -/
def Ev.key : Ev → Nat
  | Ev.data k _ => k
  | Ev.error k _ => k
  | Ev.cancelE k => k
  | Ev.endE k => k

/-- How many events of a trace belong to observer `k`. -/
def countEv (k : Nat) (tr : List Ev) : Nat :=
  tr.countP (fun e => e.key == k)

/-- The observer label an operation registers, if it is a registration. -/
def Op.reg? : Op → Option Nat
  | Op.ondata k => some k
  | Op.onerror k => some k
  | Op.oncancel k => some k
  | Op.onend k => some k
  | _ => none

/-- How many operations of a sequence register observer `k`. -/
def countReg (k : Nat) (ops : List Op) : Nat :=
  ops.countP (fun op => op.reg? == some k)

/-- Occurrences of label `k` in one optional observer array. -/
def cbCount (k : Nat) (o : Option (List Nat)) : Nat :=
  (o.getD []).countP (fun x => x == k)

/-- Occurrences of label `k` across the four observer arrays of a cell. -/
def countIn (k : Nat) (s : State) : Nat :=
  cbCount k s.dataCb + cbCount k s.errorCb + cbCount k s.cancelCb + cbCount k s.endCb

/-- The settlement invariant of a `PPromise` cell: once the result is
terminal, all four observer arrays have been deleted (every terminal
transition ends in `shrinkMemory`). -/
def Inv (s : State) : Prop :=
  s.result ≠ R.pending →
    s.dataCb = none ∧ s.errorCb = none ∧ s.cancelCb = none ∧ s.endCb = none

/-- A `PPromise` can only be `Canceled` when it is cancelable. -/
def Inv2 (s : State) : Prop :=
  s.result = R.canceled → s.cancelable = true

end PP

namespace PS

/-- The value to which `emit` turns the stream's `result`: a pending stream
becomes yielded (`if (this.result[0] === 0) this.result = [1]`), any other
result is untouched. -/
def bump : SR → SR
  | SR.pending => SR.yielded
  | r => r

/-- The events produced by firing a snapshot of `nextCb` entries with a
value, in order: a plain observer is invoked with the value, a `_listen`
wrapper invokes the consumer as `cb(v, i)`. -/
def deliver (cbs : List SCB) (v : Val) : List SEv :=
  cbs.map fun cb =>
    match cb with
    | SCB.ext k => SEv.next k v
    | SCB.listenCb k i => SEv.listenEv k v i

/-- The `nextCb` array left behind by firing a snapshot: plain observers are
consumed, each `_listen` wrapper re-registers itself with the next index. -/
def advance (cbs : List SCB) : List SCB :=
  cbs.filterMap fun cb =>
    match cb with
    | SCB.ext _ => none
    | SCB.listenCb k i => some (SCB.listenCb k (i + 1))

/-- Structural invariant of a `PStream` cell: once the stream is terminal
and flushed, `nextCb` has been deleted (`shrinkMemory` deletes it exactly
when the buffer is gone); and while the buffer is still present, `nextCb`
is still an array (it is only ever deleted together with the buffer). -/
def InvS (s : SState) : Prop :=
  (s.result.terminal = true → s.unflusedData = none → s.nextCb = none) ∧
  (∀ buf, s.unflusedData = some buf → ∃ l, s.nextCb = some l)

end PS

namespace PP

theorem Inv_init (c : Bool) : Inv (init c) := by
  intro h
  exact absurd rfl h

theorem Inv2_init (c : Bool) : Inv2 (init c) := by
  intro h
  exact R.noConfusion h

theorem Inv_step (s : State) (op : Op) (h : Inv s) : Inv (step s op).1 := by
  cases op with
  | resolve v =>
    cases hd : s.dataCb with
    | none => simpa [step, State.resolve, hd] using h
    | some ks =>
      intro _hr
      simp [step, State.resolve, hd, State.shrinkMemory]
  | reject e =>
    cases he : s.errorCb with
    | none => simpa [step, State.reject, he] using h
    | some ks =>
      intro _hr
      simp [step, State.reject, he, State.shrinkMemory]
  | cancel =>
    by_cases hc : s.cancelable = false
    · simpa [step, State.cancel, hc] using h
    · cases hcc : s.cancelCb with
      | none => simpa [step, State.cancel, hc, hcc] using h
      | some ks =>
        intro _hr
        simp [step, State.cancel, hc, hcc, State.shrinkMemory]
  | ondata k =>
    cases hd : s.dataCb with
    | none =>
      cases hr : s.result <;> simpa [step, State.ondata, hd, hr] using h
    | some ks =>
      simp only [step, State.ondata, hd]
      intro hr
      have h1 := (h hr).1
      rw [hd] at h1
      exact Option.noConfusion h1
  | onerror k =>
    cases he : s.errorCb with
    | none =>
      cases hr : s.result <;> simpa [step, State.onerror, he, hr] using h
    | some ks =>
      simp only [step, State.onerror, he]
      intro hr
      have h1 := (h hr).2.1
      rw [he] at h1
      exact Option.noConfusion h1
  | oncancel k =>
    by_cases hc : s.cancelable = false
    · simpa [step, State.oncancel, hc] using h
    · cases hcc : s.cancelCb with
      | none =>
        cases hr : s.result <;> simpa [step, State.oncancel, hc, hcc, hr] using h
      | some ks =>
        simp only [step, State.oncancel, hc, if_neg, hcc]
        intro hr
        have h1 := (h hr).2.2.1
        rw [hcc] at h1
        exact Option.noConfusion h1
  | onend k =>
    cases hen : s.endCb with
    | none =>
      cases hr : s.result <;> simpa [step, State.onend, hen, hr] using h
    | some ks =>
      simp only [step, State.onend, hen]
      intro hr
      have h1 := (h hr).2.2.2
      rw [hen] at h1
      exact Option.noConfusion h1

theorem Inv2_step (s : State) (op : Op) (h : Inv2 s) : Inv2 (step s op).1 := by
  cases op with
  | resolve v =>
    cases hd : s.dataCb with
    | none => simpa [step, State.resolve, hd] using h
    | some ks =>
      intro hr
      simp [step, State.resolve, hd, State.shrinkMemory] at hr
  | reject e =>
    cases he : s.errorCb with
    | none => simpa [step, State.reject, he] using h
    | some ks =>
      intro hr
      simp [step, State.reject, he, State.shrinkMemory] at hr
  | cancel =>
    by_cases hc : s.cancelable = false
    · simpa [step, State.cancel, hc] using h
    · cases hcc : s.cancelCb with
      | none => simpa [step, State.cancel, hc, hcc] using h
      | some ks =>
        intro _hr
        have hc2 : s.cancelable = true := by
          cases hcv : s.cancelable
          · exact absurd hcv hc
          · rfl
        simp [step, State.cancel, hc2, hcc, State.shrinkMemory]
  | ondata k =>
    cases hd : s.dataCb with
    | none =>
      cases hr : s.result <;> simpa [step, State.ondata, hd, hr] using h
    | some ks =>
      intro hr
      simp only [step, State.ondata, hd] at hr ⊢
      exact h hr
  | onerror k =>
    cases he : s.errorCb with
    | none =>
      cases hr : s.result <;> simpa [step, State.onerror, he, hr] using h
    | some ks =>
      intro hr
      simp only [step, State.onerror, he] at hr ⊢
      exact h hr
  | oncancel k =>
    by_cases hc : s.cancelable = false
    · simpa [step, State.oncancel, hc] using h
    · cases hcc : s.cancelCb with
      | none =>
        cases hr : s.result <;> simpa [step, State.oncancel, hc, hcc, hr] using h
      | some ks =>
        intro _hr
        have hc2 : s.cancelable = true := by
          cases hcv : s.cancelable
          · exact absurd hcv hc
          · rfl
        simp [step, State.oncancel, hc2, hcc]
  | onend k =>
    cases hen : s.endCb with
    | none =>
      cases hr : s.result <;> simpa [step, State.onend, hen, hr] using h
    | some ks =>
      intro hr
      simp only [step, State.onend, hen] at hr ⊢
      exact h hr

theorem Inv_run (s : State) (ops : List Op) (h : Inv s) : Inv (run s ops).1 := by
  induction ops generalizing s with
  | nil => simpa [run] using h
  | cons op rest ih => simpa [run] using ih (step s op).1 (Inv_step s op h)

theorem Inv2_run (s : State) (ops : List Op) (h : Inv2 s) : Inv2 (run s ops).1 := by
  induction ops generalizing s with
  | nil => simpa [run] using h
  | cons op rest ih => simpa [run] using ih (step s op).1 (Inv2_step s op h)

theorem Reach_Inv (s : State) (h : Reach s) : Inv s := by
  obtain ⟨c, ops, rfl⟩ := h
  exact Inv_run _ _ (Inv_init c)

theorem Reach_Inv2 (s : State) (h : Reach s) : Inv2 s := by
  obtain ⟨c, ops, rfl⟩ := h
  exact Inv2_run _ _ (Inv2_init c)

end PP

namespace PP

/-- C4.  A PPromise settles at most once: on any reachable terminal state,
each of `resolve`, `reject` and `cancel` leaves the stored outcome (indeed
the whole cell) unchanged and fires no observer; in particular `resolve(5)`
followed by `resolve(7)` leaves the observed value `5`, so no terminal state
ever changes to a different terminal state. -/
theorem ppromise_settles_at_most_once :
    (∀ s, Reach s → s.result ≠ R.pending →
      (∀ v, step s (Op.resolve v) = (s, [])) ∧
      (∀ e, step s (Op.reject e) = (s, [])) ∧
      step s Op.cancel = (s, [])) ∧
    (run (init false) [Op.resolve (Val.num 5), Op.resolve (Val.num 7)]).1.result
      = R.resolved (Val.num 5) := by
  constructor
  · intro s hs hterm
    obtain ⟨hd, he, hc, _⟩ := Reach_Inv s hs hterm
    refine ⟨?_, ?_, ?_⟩
    · intro v
      simp [step, State.resolve, hd]
    · intro e
      simp [step, State.reject, he]
    · by_cases hflag : s.cancelable = false
      · simp [step, State.cancel, hflag]
      · simp [step, State.cancel, hflag, hc]
  · rfl

/-- Witness for C4: the promise resolved with `5` is a reachable terminal
state, and a subsequent `cancel` call is a strict no-op on it. -/
theorem ppromise_settles_at_most_once_witness :
    step (run (init false) [Op.resolve (Val.num 5)]).1 Op.cancel
      = ((run (init false) [Op.resolve (Val.num 5)]).1, []) :=
  (ppromise_settles_at_most_once.1 (run (init false) [Op.resolve (Val.num 5)]).1
      ⟨false, [Op.resolve (Val.num 5)], rfl⟩
      (fun h => R.noConfusion h)).2.2

theorem countP_comp_key (p : Nat → Ev) (h : ∀ x, (p x).key = x)
    (ks : List Nat) (k : Nat) :
    ks.countP ((fun e => Ev.key e == k) ∘ p) = ks.countP (fun x => x == k) := by
  induction ks with
  | nil => rfl
  | cons a l ih => simp [List.countP_cons, Function.comp, h, ih]

theorem countEv_step (s : State) (op : Op) (k : Nat) :
    countEv k (step s op).2 + countIn k (step s op).1 ≤
      countIn k s + (if op.reg? = some k then 1 else 0) := by
  cases op with
  | resolve v =>
    cases hd : s.dataCb with
    | none => simp [step, State.resolve, hd, countEv, Op.reg?]
    | some ks =>
      cases hen : s.endCb with
      | none =>
        simp [step, State.resolve, hd, hen, countEv, countIn, cbCount,
              State.shrinkMemory, fireOpt, Op.reg?, List.countP_append,
              countP_comp_key (fun x => Ev.data x v) (fun x => rfl)]
        omega
      | some le =>
        simp [step, State.resolve, hd, hen, countEv, countIn, cbCount,
              State.shrinkMemory, fireOpt, Op.reg?, List.countP_append,
              countP_comp_key (fun x => Ev.data x v) (fun x => rfl),
              countP_comp_key Ev.endE (fun x => rfl)]
        omega
  | reject e =>
    cases he : s.errorCb with
    | none => simp [step, State.reject, he, countEv, Op.reg?]
    | some ks =>
      cases hen : s.endCb with
      | none =>
        simp [step, State.reject, he, hen, countEv, countIn, cbCount,
              State.shrinkMemory, fireOpt, Op.reg?, List.countP_append,
              countP_comp_key (fun x => Ev.error x e) (fun x => rfl)]
        omega
      | some le =>
        simp [step, State.reject, he, hen, countEv, countIn, cbCount,
              State.shrinkMemory, fireOpt, Op.reg?, List.countP_append,
              countP_comp_key (fun x => Ev.error x e) (fun x => rfl),
              countP_comp_key Ev.endE (fun x => rfl)]
        omega
  | cancel =>
    by_cases hc : s.cancelable = false
    · simp [step, State.cancel, hc, countEv, Op.reg?]
    · cases hcc : s.cancelCb with
      | none => simp [step, State.cancel, hc, hcc, countEv, Op.reg?]
      | some ks =>
        cases hen : s.endCb with
        | none =>
          simp [step, State.cancel, hc, hcc, hen, countEv, countIn, cbCount,
                State.shrinkMemory, fireOpt, Op.reg?, List.countP_append,
                countP_comp_key Ev.cancelE (fun x => rfl)]
        | some le =>
          simp [step, State.cancel, hc, hcc, hen, countEv, countIn, cbCount,
                State.shrinkMemory, fireOpt, Op.reg?, List.countP_append,
                countP_comp_key Ev.cancelE (fun x => rfl),
                countP_comp_key Ev.endE (fun x => rfl)]
  | ondata k0 =>
    cases hd : s.dataCb with
    | none =>
      cases hr : s.result <;>
        by_cases hk : k0 = k <;>
          simp [step, State.ondata, hd, hr, countEv, Op.reg?, Ev.key, hk] <;>
          try omega
    | some ks =>
      by_cases hk : k0 = k <;>
        simp [step, State.ondata, hd, countEv, countIn, cbCount, Op.reg?, hk,
              List.countP_append] <;>
        omega
  | onerror k0 =>
    cases he : s.errorCb with
    | none =>
      cases hr : s.result <;>
        by_cases hk : k0 = k <;>
          simp [step, State.onerror, he, hr, countEv, Op.reg?, Ev.key, hk] <;>
          try omega
    | some ks =>
      by_cases hk : k0 = k <;>
        simp [step, State.onerror, he, countEv, countIn, cbCount, Op.reg?, hk,
              List.countP_append] <;>
        omega
  | oncancel k0 =>
    by_cases hc : s.cancelable = false
    · by_cases hk : k0 = k <;> simp [step, State.oncancel, hc, countEv, Op.reg?, hk]
    · cases hcc : s.cancelCb with
      | none =>
        cases hr : s.result <;>
          by_cases hk : k0 = k <;>
            simp [step, State.oncancel, hc, hcc, hr, countEv, Op.reg?, Ev.key, hk] <;>
            try omega
      | some ks =>
        by_cases hk : k0 = k <;>
          simp [step, State.oncancel, hc, hcc, countEv, countIn, cbCount, Op.reg?,
                hk, List.countP_append] <;>
          omega
  | onend k0 =>
    cases hen : s.endCb with
    | none =>
      cases hr : s.result <;>
        by_cases hk : k0 = k <;>
          simp [step, State.onend, hen, hr, countEv, Op.reg?, Ev.key, hk] <;>
          try omega
    | some ks =>
      by_cases hk : k0 = k <;>
        simp [step, State.onend, hen, countEv, countIn, cbCount, Op.reg?, hk,
              List.countP_append] <;>
        omega

theorem countEv_run (s : State) (ops : List Op) (k : Nat) :
    countEv k (run s ops).2 + countIn k (run s ops).1 ≤
      countIn k s + countReg k ops := by
  induction ops generalizing s with
  | nil => simp [run, countEv, countReg]
  | cons op rest ih =>
    have h1 := countEv_step s op k
    have h2 := ih (step s op).1
    simp only [run, countEv, countReg, List.countP_append, List.countP_cons] at *
    by_cases hP : op.reg? = some k
    · simp only [hP, beq_self_eq_true, if_true] at *
      omega
    · have : (op.reg? == some k) = false := by
        simpa using hP
      simp only [hP, this, if_false] at *
      omega

end PP

namespace PP

/-- C9.  Observer registration on an already-terminal PPromise replays only
on a matching outcome, exactly once and synchronously (`ondata` after
`Resolved(x)` fires once with `x`, `onerror` after `Rejected(e)` fires once
with `e`, `oncancel` after `Canceled` fires once); registration on a
terminal state of a different outcome is silently dropped; `onend` replays
for any terminal outcome; and, over any whole run in which a given observer
label is registered at most once, that observer fires at most once — never
both at registration time and at settlement time. -/
theorem ppromise_late_registration_replay :
    (∀ s, Reach s → ∀ v k, s.result = R.resolved v →
      step s (Op.ondata k) = (s, [Ev.data k v]) ∧
      step s (Op.onerror k) = (s, []) ∧
      step s (Op.oncancel k) = (s, [])) ∧
    (∀ s, Reach s → ∀ e k, s.result = R.rejected e →
      step s (Op.onerror k) = (s, [Ev.error k e]) ∧
      step s (Op.ondata k) = (s, []) ∧
      step s (Op.oncancel k) = (s, [])) ∧
    (∀ s, Reach s → ∀ k, s.result = R.canceled →
      step s (Op.oncancel k) = (s, [Ev.cancelE k]) ∧
      step s (Op.ondata k) = (s, []) ∧
      step s (Op.onerror k) = (s, [])) ∧
    (∀ s, Reach s → ∀ k, s.result ≠ R.pending →
      step s (Op.onend k) = (s, [Ev.endE k])) ∧
    (∀ c ops k, countReg k ops ≤ 1 → countEv k (run (init c) ops).2 ≤ 1) := by
  refine ⟨?_, ?_, ?_, ?_, ?_⟩
  · intro s hs v k hres
    obtain ⟨hd, he, hc, _⟩ := Reach_Inv s hs (by simp [hres])
    refine ⟨?_, ?_, ?_⟩
    · simp [step, State.ondata, hd, hres]
    · simp [step, State.onerror, he, hres]
    · by_cases hflag : s.cancelable = false
      · simp [step, State.oncancel, hflag]
      · simp [step, State.oncancel, hflag, hc, hres]
  · intro s hs e k hres
    obtain ⟨hd, he, hc, _⟩ := Reach_Inv s hs (by simp [hres])
    refine ⟨?_, ?_, ?_⟩
    · simp [step, State.onerror, he, hres]
    · simp [step, State.ondata, hd, hres]
    · by_cases hflag : s.cancelable = false
      · simp [step, State.oncancel, hflag]
      · simp [step, State.oncancel, hflag, hc, hres]
  · intro s hs k hres
    obtain ⟨hd, he, hc, _⟩ := Reach_Inv s hs (by simp [hres])
    have hflag : s.cancelable = true := Reach_Inv2 s hs hres
    refine ⟨?_, ?_, ?_⟩
    · simp [step, State.oncancel, hflag, hc, hres]
    · simp [step, State.ondata, hd, hres]
    · simp [step, State.onerror, he, hres]
  · intro s hs k hterm
    obtain ⟨_, _, _, hen⟩ := Reach_Inv s hs hterm
    cases hr : s.result with
    | pending => exact absurd hr hterm
    | resolved v => simp [step, State.onend, hen, hr]
    | rejected e => simp [step, State.onend, hen, hr]
    | canceled => simp [step, State.onend, hen, hr]
  · intro c ops k h
    have h1 := countEv_run (init c) ops k
    have h0 : countIn k (init c) = 0 := by simp [countIn, cbCount, init]
    omega

/-- Witness for C9: the `ondata` replay on a concrete promise that already
resolved with `3` fires the late observer exactly once with `3`. -/
theorem ppromise_late_registration_replay_witness :
    step (run (init false) [Op.resolve (Val.num 3)]).1 (Op.ondata 7)
      = ((run (init false) [Op.resolve (Val.num 3)]).1, [Ev.data 7 (Val.num 3)]) :=
  (ppromise_late_registration_replay.1 (run (init false) [Op.resolve (Val.num 3)]).1
      ⟨false, [Op.resolve (Val.num 3)], rfl⟩ (Val.num 3) 7 rfl).1

theorem frozen_step (s : State) (op : Op)
    (hd : s.dataCb = none) (he : s.errorCb = none) (hc : s.cancelCb = none)
    (hen : s.endCb = none) (hr : s.result = R.canceled) :
    (step s op).1 = s ∧
      ∀ kRes kRej b,
        nativeResult ((step s op).2 ++ b) kRes kRej = nativeResult b kRes kRej := by
  cases op with
  | resolve v => simp [step, State.resolve, hd]
  | reject e => simp [step, State.reject, he]
  | cancel =>
    by_cases hflag : s.cancelable = false
    · simp [step, State.cancel, hflag]
    · simp [step, State.cancel, hflag, hc]
  | ondata k => simp [step, State.ondata, hd, hr]
  | onerror k => simp [step, State.onerror, he, hr]
  | oncancel k =>
    by_cases hflag : s.cancelable = false
    · simp [step, State.oncancel, hflag]
    · simp [step, State.oncancel, hflag, hc, hr, nativeResult]
  | onend k => simp [step, State.onend, hen, hr, nativeResult]

theorem nativeResult_frozen (s : State) (ops : List Op) (kRes kRej : Nat)
    (hd : s.dataCb = none) (he : s.errorCb = none) (hc : s.cancelCb = none)
    (hen : s.endCb = none) (hr : s.result = R.canceled) :
    nativeResult (run s ops).2 kRes kRej = none := by
  induction ops with
  | nil => simp [run, nativeResult]
  | cons op rest ih =>
    obtain ⟨h1, h2⟩ := frozen_step s op hd he hc hen hr
    show nativeResult ((step s op).2 ++ (run (step s op).1 rest).2) kRes kRej = none
    rw [h1, h2]
    exact ih

/-- C10.  After `promisified()` wires a native promise's `resolve` (label 0)
and `reject` (label 1) through `ondata` / `onerror`, cancelling the
cancelable PPromise settles the native promise on neither channel, and no
sequence of further operations can ever settle it: the native promise
neither fulfills nor rejects. -/
theorem promisified_cancelled_never_settles (ops : List Op) :
    nativeResult
      ((promisified (init true) 0 1).2
        ++ ((promisified (init true) 0 1).1.cancel).2
        ++ (run ((promisified (init true) 0 1).1.cancel).1 ops).2) 0 1 = none := by
  have h1 : (promisified (init true) 0 1).2 = [] := rfl
  have h2 : ((promisified (init true) 0 1).1.cancel).2 = [] := rfl
  rw [h1, h2, List.nil_append, List.nil_append]
  exact nativeResult_frozen _ ops 0 1 rfl rfl rfl rfl rfl

end PP

namespace W

theorem twice_sum_range (n : Nat) : 2 * (List.range (n + 1)).sum = (n + 1) * n := by
  induction n with
  | zero => rfl
  | succ m ih =>
    rw [List.range_succ, List.sum_append]
    simp only [List.sum_cons, List.sum_nil]
    have hx : (m + 1 + 1) * (m + 1) = (m + 1) * m + 2 * (m + 1) := by ring
    omega

theorem sum_range_lt_half_tri (n : Nat) (hn : 1 ≤ n) :
    (List.range n).sum < n * (n + 1) / 2 := by
  obtain ⟨m, rfl⟩ : ∃ m, n = m + 1 := ⟨n - 1, by omega⟩
  have h1 := twice_sum_range m
  have h2 : 2 * ((m + 1) * (m + 1 + 1) / 2) = (m + 1) * (m + 1 + 1) :=
    Nat.mul_div_cancel' (Nat.even_mul_succ_self (m + 1)).two_dvd
  have h3 : (m + 1) * m < (m + 1) * (m + 1 + 1) := by nlinarith
  omega

theorem exec_allRes_below (f i : Nat) (v : Val) (w : World)
    (herr : w.astate.err = false)
    (hlt : ¬ w.astate.finalCnt ≤ w.astate.cnt + i) :
    exec (Nat.succ f) (Act.allRes i v) w =
      { w with astate := { w.astate with
          cnt := w.astate.cnt + i,
          result := w.astate.result.set i (some v) } } := by
  simp [exec, herr, hlt]

theorem allRes_fold (ps : List (Nat × Val)) (w : World)
    (herr : w.astate.err = false)
    (hlt : ps = [] ∨
      w.astate.cnt + (ps.map Prod.fst).sum < w.astate.finalCnt) :
    ((ps.foldl (fun wa p => exec FUEL (Act.allRes p.1 p.2) wa) w).cells = w.cells) ∧
    ((ps.foldl (fun wa p => exec FUEL (Act.allRes p.1 p.2) wa) w).astate.err = false) := by
  induction ps generalizing w with
  | nil => exact ⟨rfl, herr⟩
  | cons p rest ih =>
    obtain ⟨i, v⟩ := p
    rcases hlt with h | h
    · exact absurd h (by simp)
    · have hsum : w.astate.cnt + i ≤
          w.astate.cnt + ((i, v) :: rest |>.map Prod.fst).sum := by
        simp
      have hi : ¬ w.astate.finalCnt ≤ w.astate.cnt + i := by omega
      have hstep := exec_allRes_below 23 i v w herr hi
      have hFUEL : (FUEL : Nat) = Nat.succ 23 := rfl
      simp only [List.foldl_cons]
      rw [hFUEL, hstep]
      have hrest := ih
        { w with astate := { w.astate with
            cnt := w.astate.cnt + i,
            result := w.astate.result.set i (some v) } }
        herr ?_
      · rw [hFUEL] at hrest
        exact hrest
      · rcases rest with _ | ⟨q, qs⟩
        · exact Or.inl rfl
        · right
          simp only [List.map_cons, List.sum_cons] at h ⊢
          omega

theorem thenW_single (w : World) (hc : w.cells = [Cell.init true]) :
    ((w.thenW 0 (some Handler.voidFn) none FUEL).1.resultOf 1 = some PP.R.pending) ∧
    ((w.thenW 0 (some Handler.voidFn) none FUEL).1.resultOf 0 = some PP.R.pending) := by
  obtain ⟨cs, A⟩ := w
  dsimp only at hc
  subst hc
  exact ⟨rfl, rfl⟩

end W

namespace W

/-- C1 (code bug).  For EVERY input array of plain values — all of which
settle successfully and immediately — the future returned by
`PPromise.all` stays `Pending` forever: `_allResolveCb` adds the bare index
`i` to `cnt`, so `cnt` can reach at most `len*(len-1)/2`, strictly below the
threshold `finalCnt = len*(len+1)/2` installed by `_allState`, and the
aggregate promise is never resolved.  The claim that `all` resolves with the
ordered array of values therefore fails on the code. -/
theorem ppromiseAll_plain_never_resolves (data : List Val) :
    ((allPlain data FUEL).1).resultOf (allPlain data FUEL).2
      = some PP.R.pending := by
  have hb : data.enum = [] ∨
      (0 : Nat) + (data.enum.map Prod.fst).sum
        < data.length * (data.length + 1) / 2 := by
    rcases data with _ | ⟨v, vs⟩
    · exact Or.inl rfl
    · right
      rw [List.enum_map_fst, Nat.zero_add]
      exact sum_range_lt_half_tri _ (by simp)
  have hfold := allRes_fold data.enum
    { cells := [Cell.init true],
      astate := { cnt := 0, finalCnt := data.length * (data.length + 1) / 2,
                  err := false, result := List.replicate data.length none,
                  promise := 0 } } rfl hb
  show ((data.enum.foldl (fun wa p => exec FUEL (Act.allRes p.1 p.2) wa)
      { cells := [Cell.init true],
        astate := { cnt := 0, finalCnt := data.length * (data.length + 1) / 2,
                    err := false, result := List.replicate data.length none,
                    promise := 0 } }).resultOf 0) = some PP.R.pending
  simp only [World.resultOf, World.cell?]
  rw [hfold.1]
  rfl

/-- C3 (code bug).  The future returned by `PPromise.allCompleted` never
resolves, even after every element has settled: for plain-value elements
(settled during the loop) and for generic thenable elements (each settling
with a fulfillment value or a rejection error, both routed to
`_allResolveCb`), the aggregate's weighted count never reaches `finalCnt`,
so the aggregate — and with it the `promise.then(VoidFn)` future handed to
the caller — stays `Pending` forever. -/
theorem allCompleted_never_settles :
    (∀ data : List Val,
      ((allCompletedPlain data FUEL).1).resultOf (allCompletedPlain data FUEL).2
        = some PP.R.pending) ∧
    (∀ outcomes : List Val,
      ((allCompletedThenables outcomes FUEL).1).resultOf
          (allCompletedThenables outcomes FUEL).2 = some PP.R.pending) := by
  constructor
  · intro data
    have hb : data.enum = [] ∨
        (0 : Nat) + (data.enum.map Prod.fst).sum
          < data.length * (data.length + 1) / 2 := by
      rcases data with _ | ⟨v, vs⟩
      · exact Or.inl rfl
      · right
        rw [List.enum_map_fst, Nat.zero_add]
        exact sum_range_lt_half_tri _ (by simp)
    have hfold := allRes_fold data.enum
      { cells := [Cell.init true],
        astate := { cnt := 0, finalCnt := data.length * (data.length + 1) / 2,
                    err := false, result := List.replicate data.length none,
                    promise := 0 } } rfl hb
    have hout : (allCompletedPlain data FUEL).2 = 1 := by
      show ((data.enum.foldl (fun wa p => exec FUEL (Act.allRes p.1 p.2) wa)
          { cells := [Cell.init true],
            astate := { cnt := 0, finalCnt := data.length * (data.length + 1) / 2,
                        err := false, result := List.replicate data.length none,
                        promise := 0 } }).cells).length = 1
      rw [hfold.1]
      rfl
    rw [hout]
    exact (thenW_single _ (by rw [hfold.1])).1
  · intro outcomes
    have hb : outcomes.enum = [] ∨
        (0 : Nat) + (outcomes.enum.map Prod.fst).sum
          < outcomes.length * (outcomes.length + 1) / 2 := by
      rcases outcomes with _ | ⟨v, vs⟩
      · exact Or.inl rfl
      · right
        rw [List.enum_map_fst, Nat.zero_add]
        exact sum_range_lt_half_tri _ (by simp)
    have hfold := allRes_fold outcomes.enum
      (({ cells := [Cell.init true],
          astate := { cnt := 0,
                      finalCnt := outcomes.length * (outcomes.length + 1) / 2,
                      err := false, result := List.replicate outcomes.length none,
                      promise := 0 } } : World).thenW 0
        (some Handler.voidFn) none FUEL).1 rfl hb
    show ((outcomes.enum.foldl (fun wa p => exec FUEL (Act.allRes p.1 p.2) wa)
        (({ cells := [Cell.init true],
            astate := { cnt := 0,
                        finalCnt := outcomes.length * (outcomes.length + 1) / 2,
                        err := false, result := List.replicate outcomes.length none,
                        promise := 0 } } : World).thenW 0
          (some Handler.voidFn) none FUEL).1).resultOf 1) = some PP.R.pending
    simp only [World.resultOf, World.cell?, hfold.1]
    rfl

/-- C2 counterexample.  `PPromise.all([p0, p1])` with both elements pending
and cancelable: when `p1` rejects with the string error `"boom"`, the
aggregate does reject with exactly that error, but the other element `p0`
— a PPromise that is still pending — is NOT cancelled: its state remains
`Pending`, not `Canceled`, refuting the claim that the first rejection
cancels every other pending PPromise element. -/
theorem all_reject_leaves_sibling_pending_cex :
    (c2Reject (Val.str "boom")).resultOf c2Agg
        = some (PP.R.rejected (Val.str "boom")) ∧
    (c2Reject (Val.str "boom")).resultOf 0 = some PP.R.pending ∧
    ¬ (c2Reject (Val.str "boom")).resultOf 0 = some PP.R.canceled :=
  ⟨rfl, rfl, fun h => PP.R.noConfusion (Option.some.inj h)⟩

theorem c2W_eval : c2W = c2Wlit := rfl

set_option maxHeartbeats 1600000 in
theorem c2Reject_eval (e : Val) : c2Reject e = c2WFlit e := by
  have hB : exec 21 (Act.rejectC 5 e) (c2W1lit e) = c2WBlit e := rfl
  show (match (exec 21 (Act.rejectC 5 e) (c2W1lit e)).cell? 1 with
        | some c2 =>
          match c2.endCb with
          | some ecbs =>
            exec 23 (Act.fireList ecbs Val.undef) (exec 21 (Act.rejectC 5 e) (c2W1lit e))
          | none => exec 21 (Act.rejectC 5 e) (c2W1lit e)
        | none => exec 21 (Act.rejectC 5 e) (c2W1lit e)).shrinkCell 1 = c2WFlit e
  rw [hB]
  rfl

/-- C2 amended.  When an element of `PPromise.all` rejects first, the
aggregate immediately rejects with exactly that element's error, unchanged;
the rejection does NOT cancel the other, still-pending PPromise elements —
they are cancelled only when the aggregate future itself is cancelled
(the `bindCancel` wiring registered by the loop). -/
theorem all_reject_amended :
    (∀ e : Val,
      (c2Reject e).resultOf c2Agg = some (PP.R.rejected e) ∧
      (c2Reject e).resultOf 0 = some PP.R.pending) ∧
    (c2Cancel.resultOf 0 = some PP.R.canceled ∧
      c2Cancel.resultOf 1 = some PP.R.canceled) := by
  refine ⟨fun e => ?_, rfl, rfl⟩
  rw [c2Reject_eval e]
  exact ⟨rfl, rfl⟩

/-- C7.  For a cancelable source promise and `derived = source.then(g)`
(any transform `g`): cancelling the source before it settles makes the
derived future reject with the cancellation sentinel `CancelError` (thrown
by the default `oncanceled` handler `PPromise.ThrowCancel` that `then`
passes to `map`), and — because `then` sets `bindCancel = true` —
cancelling the derived future cancels the source. -/
theorem c7W_eval (g : Val → HRes) : c7W g = c7Wlit g := rfl

set_option maxHeartbeats 1600000 in
theorem then_cancellation_wiring (g : Val → HRes) :
    ((c7CancelSource g).resultOf 1 = some (PP.R.rejected Val.cancelError)) ∧
    ((c7CancelSource g).resultOf 0 = some PP.R.canceled) ∧
    ((c7CancelDerived g).resultOf 0 = some PP.R.canceled) := by
  refine ⟨?_, ?_, ?_⟩
  · show (exec FUEL (Act.cancelC 0) (c7W g)).resultOf 1 = _
    rw [c7W_eval g]
    rfl
  · show (exec FUEL (Act.cancelC 0) (c7W g)).resultOf 0 = _
    rw [c7W_eval g]
    rfl
  · show (exec FUEL (Act.cancelC 1) (c7W g)).resultOf 0 = _
    rw [c7W_eval g]
    rfl

end W

namespace PS

theorem runS_append (s : SState) (a b : List SOp) :
    runS s (a ++ b)
      = ((runS (runS s a).1 b).1, (runS s a).2 ++ (runS (runS s a).1 b).2) := by
  induction a generalizing s with
  | nil => simp [runS]
  | cons op rest ih =>
    show runS s (op :: (rest ++ b)) = _
    simp only [runS]
    rw [ih]
    simp [List.append_assoc]

theorem runS_emits_yielded (vs : List Val) (buf : List Val) (cbs : List SCB)
    (E C CC EN : Option (List Nat)) :
    runS ⟨some buf, SR.yielded, some cbs, E, C, CC, EN⟩ (vs.map SOp.emit)
      = (⟨some (buf ++ vs), SR.yielded, some cbs, E, C, CC, EN⟩, []) := by
  induction vs generalizing buf with
  | nil => simp [runS]
  | cons v rest ih =>
    simp only [List.map_cons, runS, stepS, SState.emit, ih, List.append_assoc,
      List.singleton_append, List.nil_append]

theorem flushLoop_single_listen (buf : List Val) (k i : Nat)
    (U : Option (List Val)) (r : SR) (E C CC EN : Option (List Nat)) :
    flushLoop ⟨U, r, some [SCB.listenCb k i], E, C, CC, EN⟩ buf
      = (⟨U, r, some [SCB.listenCb k (i + buf.length)], E, C, CC, EN⟩,
        (buf.enumFrom i).map (fun p => SEv.listenEv k p.2 p.1)) := by
  induction buf generalizing i with
  | nil => simp [flushLoop]
  | cons v rest ih =>
    simp only [flushLoop, fireNextList, fireNextCb, SState.onnext, List.nil_append,
      List.enumFrom, List.map_cons]
    rw [ih (i + 1)]
    have h2 : i + 1 + rest.length = i + (rest.length + 1) := by omega
    rw [h2]
    simp

/-- C8.  For every sequence of values emitted on a fresh stream before
`listen`: the values accumulate in the buffer in arrival order, and
`listen(cb)` synchronously delivers `cb(v, i)` for each buffered value with
indices counting up from 0 in emission order — e.g. emits of `1, 2, 3` then
`listen` produce exactly `cb(1,0), cb(2,1), cb(3,2)` in that order. -/
theorem pstream_buffer_flush_order (vs : List Val) (k : Nat) :
    ((runS initS (vs.map SOp.emit)).1.unflusedData = some vs) ∧
    ((runS initS (vs.map SOp.emit ++ [SOp.listen k])).2
      = vs.enum.map (fun p => SEv.listenEv k p.2 p.1)) := by
  rcases vs with _ | ⟨v, rest⟩
  · exact ⟨rfl, rfl⟩
  · have hrun : runS initS ((v :: rest).map SOp.emit)
        = (⟨some (v :: rest), SR.yielded, some [], some [], some [], some [],
            some []⟩, []) := by
      simp only [List.map_cons, runS, stepS, initS, SState.emit, List.nil_append]
      rw [runS_emits_yielded rest [v]]
      rfl
    constructor
    · rw [hrun]
    · have hstep : stepS ⟨some (v :: rest), SR.yielded, some [], some [], some [],
          some [], some []⟩ (SOp.listen k)
          = (⟨none, SR.yielded, some [SCB.listenCb k (0 + (v :: rest).length)], some [],
              some [], some [], some []⟩,
            ((v :: rest).enumFrom 0).map (fun p => SEv.listenEv k p.2 p.1)) := by
        simp only [stepS, SState.listen, SState.onnext, SState.flushData,
          List.nil_append]
        rw [flushLoop_single_listen]
      rw [runS_append, hrun]
      simp only [runS, hstep]
      simp only [List.nil_append, List.append_nil]
      rfl

end PS

namespace PS

theorem fireNextList_advance (cbs : List SCB) (v : Val) (s : SState) (acc : List SCB)
    (hn : s.nextCb = some acc) :
    fireNextList s cbs v
      = ({ s with nextCb := some (acc ++ advance cbs) }, deliver cbs v) := by
  induction cbs generalizing s acc with
  | nil =>
    obtain ⟨U, r, n, E, C, CC, EN⟩ := s
    simp only at hn
    subst hn
    simp [fireNextList, advance, deliver]
  | cons cb rest ih =>
    cases cb with
    | ext k =>
      simp only [fireNextList, fireNextCb]
      rw [ih s acc hn]
      simp [advance, deliver]
    | listenCb k i =>
      simp only [fireNextList, fireNextCb, SState.onnext, hn]
      rw [ih { s with nextCb := some (acc ++ [SCB.listenCb k (i + 1)]) }
        (acc ++ [SCB.listenCb k (i + 1)]) rfl]
      simp [advance, deliver, List.append_assoc]

/-- C5 amended.  On a flushed stream, each `emit` delivers the value
synchronously and in order to exactly the `nextCb` entries registered at
that moment (`deliver`), but delivery consumes the registrations: the new
`nextCb` array keeps only the self-re-registered `_listen` wrappers
(`advance`), so a plain `onnext` observer receives only the first value
emitted after its registration, while `listen`'s wrapper keeps receiving
every item. -/
theorem pstream_emit_flushed_delivery (s : SState) (cbs : List SCB) (v : Val)
    (hflushed : s.unflusedData = none) (hnext : s.nextCb = some cbs) :
    s.emit v = ({ s with result := bump s.result, nextCb := some (advance cbs) },
                deliver cbs v) := by
  obtain ⟨U, r, n, E, C, CC, EN⟩ := s
  simp only at hflushed hnext
  subst hflushed
  subst hnext
  cases r <;>
    (simp only [SState.emit, bump]
     rw [fireNextList_advance cbs v _ [] rfl]
     simp)

/-- Witness for C5: on the concrete flushed stream produced by `listen 0`
on a fresh stream, an emit of `5` delivers `cb(5, 0)` to the listen wrapper
and re-registers it with index 1. -/
theorem pstream_emit_flushed_delivery_witness :
    (runS initS [SOp.listen 0]).1.emit (Val.num 5)
      = ({ (runS initS [SOp.listen 0]).1 with
           result := bump (runS initS [SOp.listen 0]).1.result,
           nextCb := some (advance [SCB.listenCb 0 0]) },
         deliver [SCB.listenCb 0 0] (Val.num 5)) :=
  pstream_emit_flushed_delivery (runS initS [SOp.listen 0]).1 [SCB.listenCb 0 0]
    (Val.num 5) rfl rfl

/-- C5 counterexample.  After `listen(cb0)` has flushed the stream, a plain
`onnext` observer (label 1) is registered and two values are emitted: the
observer receives `10` but NOT `20` (the second emit fires only the listen
wrapper), refuting the claim that every onNext observer registered after
the flush receives every item emitted after its registration. -/
theorem pstream_onnext_one_shot_cex :
    ((runS initS [SOp.listen 0, SOp.onnext 1, SOp.emit (Val.num 10),
        SOp.emit (Val.num 20)]).2
      = [SEv.listenEv 0 (Val.num 10) 0, SEv.next 1 (Val.num 10),
         SEv.listenEv 0 (Val.num 20) 1]) ∧
    SEv.next 1 (Val.num 20) ∉
      (runS initS [SOp.listen 0, SOp.onnext 1, SOp.emit (Val.num 10),
        SOp.emit (Val.num 20)]).2 := by
  refine ⟨rfl, ?_⟩
  intro h
  have h2 : SEv.next 1 (Val.num 20) ∈
      ([SEv.listenEv 0 (Val.num 10) 0, SEv.next 1 (Val.num 10),
        SEv.listenEv 0 (Val.num 20) 1] : List SEv) := h
  simp at h2

theorem fireNextList_frame (cbs : List SCB) (v : Val) (s : SState) :
    ((fireNextList s cbs v).1.result = s.result) ∧
    ((fireNextList s cbs v).1.unflusedData = s.unflusedData) := by
  induction cbs generalizing s with
  | nil => exact ⟨rfl, rfl⟩
  | cons cb rest ih =>
    cases cb with
    | ext k => exact ih s
    | listenCb k i =>
      have h1 : (fireNextCb s (SCB.listenCb k i) v).1.result = s.result := by
        cases hn : s.nextCb <;> simp [fireNextCb, SState.onnext, hn]
      have h2 : (fireNextCb s (SCB.listenCb k i) v).1.unflusedData = s.unflusedData := by
        cases hn : s.nextCb <;> simp [fireNextCb, SState.onnext, hn]
      have h3 := ih (fireNextCb s (SCB.listenCb k i) v).1
      exact ⟨h3.1.trans h1, h3.2.trans h2⟩

end PS

namespace PS

theorem InvS_flushData (s : SState) (h : InvS s) : InvS (s.flushData).1 := by
  obtain ⟨hK, hJ⟩ := h
  cases hu : s.unflusedData with
  | none => simpa [SState.flushData, hu] using ⟨hK, hJ⟩
  | some buf =>
    cases hn : s.nextCb with
    | none => simpa [SState.flushData, hu, hn] using ⟨hK, hJ⟩
    | some l =>
      simp only [SState.flushData, hu, hn]
      cases hres : ((flushLoop s buf).1).result with
      | pending =>
        simp only [hres]
        constructor
        · intro hterm _
          simp [SR.terminal] at hterm
        · intro buf2 hbuf
          simp at hbuf
      | yielded =>
        simp only [hres]
        constructor
        · intro hterm _
          simp [SR.terminal] at hterm
        · intro buf2 hbuf
          simp at hbuf
      | rejected e =>
        simp only [hres]
        constructor
        · intro _ _
          simp [SState.shrinkMemory]
        · intro buf2 hbuf
          simp [SState.shrinkMemory] at hbuf
      | canceled =>
        simp only [hres]
        constructor
        · intro _ _
          simp [SState.shrinkMemory]
        · intro buf2 hbuf
          simp [SState.shrinkMemory] at hbuf
      | completed =>
        simp only [hres]
        constructor
        · intro _ _
          simp [SState.shrinkMemory]
        · intro buf2 hbuf
          simp [SState.shrinkMemory] at hbuf

theorem InvS_stepS (s : SState) (op : SOp) (h : InvS s) : InvS (stepS s op).1 := by
  obtain ⟨hK, hJ⟩ := h
  cases op with
  | emit v =>
    cases hn : s.nextCb with
    | none => simpa [stepS, SState.emit, hn] using ⟨hK, hJ⟩
    | some cbs =>
      cases hu : s.unflusedData with
      | some buf =>
        cases hr : s.result <;>
          (simp only [stepS, SState.emit, hn, hu, hr]
           constructor
           · intro _ hflush
             simp at hflush
           · intro buf2 _
             exact ⟨cbs, rfl⟩)
      | none =>
        cases hr : s.result with
        | pending =>
          simp only [stepS, SState.emit, hn, hu, hr]
          constructor
          · intro hterm _
            rw [(fireNextList_frame cbs v _).1] at hterm
            simp [SR.terminal] at hterm
          · intro buf2 hbuf
            rw [(fireNextList_frame cbs v _).2] at hbuf
            simp [hu] at hbuf
        | yielded =>
          simp only [stepS, SState.emit, hn, hu, hr]
          constructor
          · intro hterm _
            rw [(fireNextList_frame cbs v _).1] at hterm
            simp [SR.terminal] at hterm
          · intro buf2 hbuf
            rw [(fireNextList_frame cbs v _).2] at hbuf
            simp [hu] at hbuf
        | rejected e =>
          have h0 := hK (by simp [hr, SR.terminal]) hu
          rw [hn] at h0
          exact Option.noConfusion h0
        | canceled =>
          have h0 := hK (by simp [hr, SR.terminal]) hu
          rw [hn] at h0
          exact Option.noConfusion h0
        | completed =>
          have h0 := hK (by simp [hr, SR.terminal]) hu
          rw [hn] at h0
          exact Option.noConfusion h0
  | resolveS =>
    cases hc : s.completedCb with
    | none => simpa [stepS, SState.resolveS, hc] using ⟨hK, hJ⟩
    | some ks =>
      simp only [stepS, SState.resolveS, hc, SState.shrinkMemory]
      cases hu : s.unflusedData with
      | none =>
        constructor
        · intro _ _
          simp [hu]
        · intro buf hbuf
          simp [hu] at hbuf
      | some buf0 =>
        obtain ⟨l, hl⟩ := hJ buf0 hu
        constructor
        · intro _ hflush
          simp [hu] at hflush
        · intro buf hbuf
          simp [hu, hl]
  | rejectS e =>
    cases he : s.errorCb with
    | none => simpa [stepS, SState.rejectS, he] using ⟨hK, hJ⟩
    | some ks =>
      simp only [stepS, SState.rejectS, he, SState.shrinkMemory]
      cases hu : s.unflusedData with
      | none =>
        constructor
        · intro _ _
          simp [hu]
        · intro buf hbuf
          simp [hu] at hbuf
      | some buf0 =>
        obtain ⟨l, hl⟩ := hJ buf0 hu
        constructor
        · intro _ hflush
          simp [hu] at hflush
        · intro buf hbuf
          simp [hu, hl]
  | cancelS =>
    cases hc : s.cancelCb with
    | none => simpa [stepS, SState.cancelS, hc] using ⟨hK, hJ⟩
    | some ks =>
      simp only [stepS, SState.cancelS, hc, SState.shrinkMemory]
      cases hu : s.unflusedData with
      | none =>
        constructor
        · intro _ _
          simp [hu]
        · intro buf hbuf
          simp [hu] at hbuf
      | some buf0 =>
        obtain ⟨l, hl⟩ := hJ buf0 hu
        constructor
        · intro _ hflush
          simp [hu] at hflush
        · intro buf hbuf
          simp [hu, hl]
  | onnext k =>
    cases hn : s.nextCb with
    | none => simpa [stepS, SState.onnext, hn] using ⟨hK, hJ⟩
    | some l =>
      simp only [stepS, SState.onnext, hn]
      constructor
      · intro hterm hflush
        have h0 := hK hterm hflush
        rw [hn] at h0
        exact Option.noConfusion h0
      · intro buf _
        exact ⟨l ++ [SCB.ext k], rfl⟩
  | onerrorS k =>
    cases he : s.errorCb with
    | none =>
      cases hr : s.result <;> simpa [stepS, SState.onerrorS, he, hr] using ⟨hK, hJ⟩
    | some ks =>
      simp only [stepS, SState.onerrorS, he]
      exact ⟨fun hterm hflush => hK hterm hflush, fun buf hbuf => hJ buf hbuf⟩
  | oncancelS k =>
    cases hc : s.cancelCb with
    | none =>
      cases hr : s.result <;> simpa [stepS, SState.oncancelS, hc, hr] using ⟨hK, hJ⟩
    | some ks =>
      simp only [stepS, SState.oncancelS, hc]
      exact ⟨fun hterm hflush => hK hterm hflush, fun buf hbuf => hJ buf hbuf⟩
  | onfinish k =>
    cases hc : s.completedCb with
    | none =>
      cases hr : s.result <;> simpa [stepS, SState.onfinish, hc, hr] using ⟨hK, hJ⟩
    | some ks =>
      simp only [stepS, SState.onfinish, hc]
      exact ⟨fun hterm hflush => hK hterm hflush, fun buf hbuf => hJ buf hbuf⟩
  | onendS k =>
    cases hen : s.endCb with
    | none =>
      cases hr : s.result <;> simpa [stepS, SState.onendS, hen, hr] using ⟨hK, hJ⟩
    | some ks =>
      simp only [stepS, SState.onendS, hen]
      exact ⟨fun hterm hflush => hK hterm hflush, fun buf hbuf => hJ buf hbuf⟩
  | flushData =>
    exact InvS_flushData s ⟨hK, hJ⟩
  | listen k =>
    cases hu : s.unflusedData with
    | none => simpa [stepS, SState.listen, hu] using ⟨hK, hJ⟩
    | some buf =>
      obtain ⟨l, hl⟩ := hJ buf hu
      have hinv2 : InvS (s.onnext (SCB.listenCb k 0)) := by
        simp only [SState.onnext, hl]
        constructor
        · intro hterm hflush
          have h0 := hK hterm hflush
          rw [hl] at h0
          exact Option.noConfusion h0
        · intro buf2 _
          exact ⟨l ++ [SCB.listenCb k 0], rfl⟩
      have := InvS_flushData (s.onnext (SCB.listenCb k 0)) hinv2
      simpa [stepS, SState.listen, hu] using this

theorem InvS_runS (s : SState) (ops : List SOp) (h : InvS s) : InvS (runS s ops).1 := by
  induction ops generalizing s with
  | nil => simpa [runS] using h
  | cons op rest ih => simpa [runS] using ih (stepS s op).1 (InvS_stepS s op h)

theorem InvS_init : InvS initS := by
  constructor
  · intro hterm _
    simp [initS, SR.terminal] at hterm
  · intro buf _
    exact ⟨[], rfl⟩

theorem ReachS_InvS (s : SState) (h : ReachS s) : InvS s := by
  obtain ⟨ops, rfl⟩ := h
  exact InvS_runS _ _ InvS_init

end PS

namespace PS

/-- **C6** (corrected). The spec claims `emit` after a terminal result is a
complete no-op. The guard in `PStream.emit` (src/pstream.ts line 84) is
`this.nextCb === undefined`, not a check of `this.result`; `shrinkMemory`
deletes `nextCb` only when `unflusedData` is gone (line 65-67). Hence on a
reachable terminal stream: if the buffer was flushed, `nextCb` is deleted
and `emit` is indeed a silent no-op (no state change, no events, no
exception); but if unflushed data remains, `emit` still appends the value
to the internal buffer (observably: a later first `listen` replays it).
In neither case is anything delivered or thrown. -/
theorem pstream_emit_after_terminal (s : SState) (hs : ReachS s)
    (hterm : s.result.terminal = true) (v : Val) :
    (s.unflusedData = none → s.emit v = (s, [])) ∧
    (∀ buf, s.unflusedData = some buf →
      s.emit v = ({ s with unflusedData := some (buf ++ [v]) }, [])) := by
  obtain ⟨hK, hJ⟩ := ReachS_InvS s hs
  constructor
  · intro hu
    have hn := hK hterm hu
    simp [SState.emit, hn]
  · intro buf hu
    obtain ⟨l, hl⟩ := hJ buf hu
    cases hr : s.result with
    | pending => rw [hr] at hterm; simp [SR.terminal] at hterm
    | yielded => rw [hr] at hterm; simp [SR.terminal] at hterm
    | rejected e => simp [SState.emit, hl, hr, hu]
    | canceled => simp [SState.emit, hl, hr, hu]
    | completed => simp [SState.emit, hl, hr, hu]

theorem pstream_emit_after_terminal_witness :
    ((runS initS [SOp.listen 0, SOp.rejectS (Val.str "e")]).1.emit (Val.num 2) =
      ((runS initS [SOp.listen 0, SOp.rejectS (Val.str "e")]).1, [])) ∧
    ((runS initS [SOp.emit (Val.num 1), SOp.rejectS (Val.str "e")]).1.emit (Val.num 2) =
      ({ (runS initS [SOp.emit (Val.num 1), SOp.rejectS (Val.str "e")]).1 with
          unflusedData := some ([Val.num 1] ++ [Val.num 2]) }, [])) :=
  ⟨(pstream_emit_after_terminal _
      ⟨[SOp.listen 0, SOp.rejectS (Val.str "e")], rfl⟩ rfl (Val.num 2)).1 rfl,
   (pstream_emit_after_terminal _
      ⟨[SOp.emit (Val.num 1), SOp.rejectS (Val.str "e")], rfl⟩ rfl (Val.num 2)).2
      [Val.num 1] rfl⟩

/-- Counterexample to the literal claim: on a stream with unflushed data the
source still buffers an `emit` issued after rejection — the internal buffer
grows from `[1]` to `[1, 2]`, so the post-terminal `emit` is not a no-op. -/
theorem pstream_emit_after_terminal_cex :
    (runS initS
      [SOp.emit (Val.num 1), SOp.rejectS (Val.str "e"),
       SOp.emit (Val.num 2)]).1.unflusedData = some [Val.num 1, Val.num 2] ∧
    (runS initS
      [SOp.emit (Val.num 1),
       SOp.rejectS (Val.str "e")]).1.unflusedData = some [Val.num 1] :=
  ⟨rfl, rfl⟩

end PS
